import Mathlib

/-!
Verification of the exact rational arithmetic core and unit-conversion
protocol of `src/widget.js` (openbis-quantitywidget).

The JavaScript source is shallowly embedded below:
* JS `BigInt` becomes `Int`; BigInt `/` and `%` truncate toward zero, so they
  become `Int.tdiv` and `Int.tmod`.
* JS `null`/absent values become `Option`.
* JS `throw` becomes the `Except JsErr` monad; the two throw sites in the
  rational core are the zero-denominator check in `normalizeRational` and the
  division-by-zero check in `rationalDivide`.
* Strings are processed as `List Char`.  The recursive fraction syntax of
  `parseRational` is handled with a fuel parameter (the recursion strictly
  decreases the string length, so `length + 1` fuel is always enough); fuel
  keeps every definition computable by kernel reduction.
* Floating-point (`typeof value === 'number'`) inputs are outside the scope of
  this embedding; no claim under verification involves them.
-/

/-- Error kinds corresponding to the `throw new Error(...)` sites of the
rational core in `widget.js`. -/
inductive JsErr where
  | invalidRational
  | divisionByZero
deriving DecidableEq, Repr

/-- The `{ numerator, denominator }` BigInt pair used throughout `widget.js`. -/
structure RatR where
  numerator : Int
  denominator : Int
deriving DecidableEq, Repr

/-- One step-bounded Euclid loop: embeds the `while (y !== 0n)` loop of
`gcdBigInt` (widget.js:30-34).  The fuel argument only bounds the iteration
count; `y + 1` steps always suffice since `y` strictly decreases. -/
def euclidFuel : Nat → Nat → Nat → Nat
  | 0, x, _ => x
  | f + 1, x, y => if y = 0 then x else euclidFuel f y (x % y)

/-- `gcdBigInt` (widget.js:27-36): takes absolute values, then runs Euclid. -/
def gcdBigInt (a b : Int) : Int :=
  Int.ofNat (euclidFuel (b.natAbs + 1) a.natAbs b.natAbs)

/-- Binary exponentiation loop of `pow10BigInt` (widget.js:17-23), with a fuel
bound on the iteration count (`power + 1` always suffices). -/
def powFuel : Nat → Int → Nat → Int → Int
  | 0, _, _, result => result
  | f + 1, base, power, result =>
    if power = 0 then result
    else
      powFuel f (base * base) (power / 2)
        (if power % 2 = 1 then result * base else result)

/-- `pow10BigInt` (widget.js:10-25): `10^exponent` for positive exponents via
exponentiation by squaring, `1` for non-positive exponents. -/
def pow10BigInt (exponent : Int) : Int :=
  if exponent ≤ 0 then 1
  else powFuel (exponent.toNat + 1) 10 exponent.toNat 1

/-- `normalizeRational` (widget.js:38-60).  `null` passes through; a zero
denominator throws; a zero numerator becomes the canonical zero; otherwise the
sign is moved to the numerator and both components are divided by their gcd
(only when the gcd exceeds one, exactly as in the source). -/
def normalizeRational : Option RatR → Except JsErr (Option RatR)
  | none => .ok none
  | some rational =>
    if rational.denominator = 0 then .error .invalidRational
    else if rational.numerator = 0 then .ok (some ⟨0, 1⟩)
    else
      let numerator :=
        if rational.denominator < 0 then -rational.numerator else rational.numerator
      let denominator :=
        if rational.denominator < 0 then -rational.denominator else rational.denominator
      let divisor := gcdBigInt (if numerator < 0 then -numerator else numerator) denominator
      if 1 < divisor then
        .ok (some ⟨numerator.tdiv divisor, denominator.tdiv divisor⟩)
      else
        .ok (some ⟨numerator, denominator⟩)

/-- `rationalZero` (widget.js:151-153). -/
def rationalZero : RatR := ⟨0, 1⟩

/-- `rationalOne` (widget.js:155-157). -/
def rationalOne : RatR := ⟨1, 1⟩

/-- `rationalAdd` (widget.js:159-169): an absent operand is treated as the
identity (the other operand is normalized), `add(null, null)` is `null`. -/
def rationalAdd : Option RatR → Option RatR → Except JsErr (Option RatR)
  | none, b =>
    match b with
    | none => .ok none
    | some br => normalizeRational (some br)
  | some a, none => normalizeRational (some a)
  | some a, some b =>
    normalizeRational (some
      ⟨a.numerator * b.denominator + b.numerator * a.denominator,
       a.denominator * b.denominator⟩)

/-- `rationalSubtract` (widget.js:171-177): absent subtrahend normalizes the
minuend; otherwise adds the negation. -/
def rationalSubtract (a b : Option RatR) : Except JsErr (Option RatR) :=
  match b with
  | none => normalizeRational a
  | some br => rationalAdd a (some ⟨-br.numerator, br.denominator⟩)

/-- `rationalMultiply` (widget.js:179-189): `null` if either operand is absent;
short-circuits to the exact zero if either numerator is zero. -/
def rationalMultiply : Option RatR → Option RatR → Except JsErr (Option RatR)
  | none, _ => .ok none
  | some _, none => .ok none
  | some a, some b =>
    if a.numerator = 0 ∨ b.numerator = 0 then .ok (some rationalZero)
    else
      normalizeRational (some
        ⟨a.numerator * b.numerator, a.denominator * b.denominator⟩)

/-- `rationalDivide` (widget.js:191-204): `null` if either operand is absent;
throws on a zero divisor numerator; short-circuits to the exact zero on a zero
dividend numerator without touching the divisor further. -/
def rationalDivide : Option RatR → Option RatR → Except JsErr (Option RatR)
  | none, _ => .ok none
  | some _, none => .ok none
  | some a, some b =>
    if b.numerator = 0 then .error .divisionByZero
    else if a.numerator = 0 then .ok (some rationalZero)
    else
      normalizeRational (some
        ⟨a.numerator * b.denominator, a.denominator * b.numerator⟩)

/-- The fractional-digit loop of `rationalToString` (widget.js:230-235): up to
`guard` iterations, each multiplying the remainder by ten and dividing by the
denominator; stops early once the remainder is zero.  Returns the generated
digits together with the final remainder. -/
def fracDigitsLoop : Nat → Int → Int → List Int × Int
  | 0, rem, _ => ([], rem)
  | g + 1, rem, den =>
    if rem = 0 then ([], rem)
    else
      let rem10 := rem * 10
      let p := fracDigitsLoop g (rem10.tmod den) den
      (rem10.tdiv den :: p.1, p.2)

/-- The carry-propagation loop of `rationalToString` (widget.js:244-254),
expressed on the reversed digit list (the source walks indices from the end).
Returns the updated (still reversed) digits and whether the carry ran past the
most significant digit. -/
def incDigitsRev : List Int → List Int × Bool
  | [] => ([], true)
  | d :: rest =>
    let v := d + 1
    if 10 ≤ v then
      let p := incDigitsRev rest
      (0 :: p.1, p.2)
    else (v :: rest, false)

/-- Trailing-zero trimming of `rationalToString` (widget.js:260-262). -/
def popTrailingZeros (ds : List Int) : List Int :=
  (ds.reverse.dropWhile (fun d => d == 0)).reverse

/-- `rationalToString` (widget.js:213-271): sign split, integer part by
truncating division, at most 24 fractional digits by long division, round-up
of the last digit when one further digit would be at least five (with carry,
possibly incrementing the integer part and zeroing the digits), trailing-zero
trimming, and suppression of a negative sign on a zero result. -/
def rationalToString : Option RatR → String
  | none => ""
  | some rational =>
    if rational.numerator = 0 then "0"
    else
      let negative := rational.numerator < 0
      let numerator := if negative then -rational.numerator else rational.numerator
      let denominator := rational.denominator
      let integerPart := numerator.tdiv denominator
      let remainder := numerator.tmod denominator
      let p := fracDigitsLoop 24 remainder denominator
      let digits := p.1
      let remFinal := p.2
      let roundUp := remFinal ≠ 0 && 5 ≤ (remFinal * 10).tdiv denominator
      let carried :=
        if roundUp && !digits.isEmpty then
          let q := incDigitsRev digits.reverse
          if q.2 then (integerPart + 1, (q.1.reverse.map fun _ => (0 : Int)))
          else (integerPart, q.1.reverse)
        else (integerPart, digits)
      let trimmed := popTrailingZeros carried.2
      let result :=
        toString carried.1 ++
          (if trimmed.isEmpty then "" else "." ++ String.join (trimmed.map toString))
      if negative && result ≠ "0" then "-" ++ result else result

/-- Whitespace test used to embed `String.prototype.trim` and the leading
whitespace skipping of `parseInt`: the ECMAScript WhiteSpace set (TAB, VT,
FF, SP, NBSP, ZWNBSP and the Unicode space separators of category Zs) plus
the LineTerminator set (LF, CR, LS, PS). -/
def isWsChar (c : Char) : Bool :=
  c.toNat = 0x09 || c.toNat = 0x0A || c.toNat = 0x0B || c.toNat = 0x0C ||
  c.toNat = 0x0D || c.toNat = 0x20 || c.toNat = 0xA0 || c.toNat = 0x1680 ||
  (0x2000 ≤ c.toNat && c.toNat ≤ 0x200A) || c.toNat = 0x2028 ||
  c.toNat = 0x2029 || c.toNat = 0x202F || c.toNat = 0x205F ||
  c.toNat = 0x3000 || c.toNat = 0xFEFF

/-- `String.prototype.trim` on a character list: drop whitespace from both
ends. -/
def trimWs (l : List Char) : List Char :=
  ((l.dropWhile isWsChar).reverse.dropWhile isWsChar).reverse

/-- `indexOf`-based split at the first occurrence of `c`: returns the parts
before and after it, or `none` when `c` does not occur.  Embeds the
`str.indexOf('/')` / `str.slice` pattern of widget.js:93-96. -/
def splitFirst (c : Char) : List Char → Option (List Char × List Char)
  | [] => none
  | x :: xs =>
    if x = c then some ([], xs)
    else (splitFirst c xs).map fun p => (x :: p.1, p.2)

/-- `BigInt(digits)` on an all-digit string (widget.js:136): base-ten value of
a digit character list. -/
def digitsToNat (l : List Char) : Nat :=
  l.foldl (fun a c => a * 10 + (c.toNat - 48)) 0

/-- JS `parseInt(s, 10)` (widget.js:116): skip leading whitespace, optional
sign, then the longest digit prefix; `none` models the `NaN` outcome when no
digit is found. -/
def parseIntJS (l : List Char) : Option Int :=
  let t := l.dropWhile isWsChar
  let sr : Int × List Char :=
    match t with
    | '+' :: rest => (1, rest)
    | '-' :: rest => (-1, rest)
    | _ => (1, t)
  let ds := sr.2.takeWhile Char.isDigit
  if ds.isEmpty then none else some (sr.1 * (digitsToNat ds : Int))

/-- The leading-sign handling of `parseRational` (widget.js:82-88): a leading
`+` is dropped, a leading `-` is dropped and flips the sign. -/
def stripSign (t : List Char) : Int × List Char :=
  match t with
  | [] => (1, [])
  | c :: rest =>
    if c = '+' then (1, rest)
    else if c = '-' then (-1, rest)
    else (1, c :: rest)

/-- The exponent/decimal-point/digit phase of `parseRational`
(widget.js:114-148), applied after sign stripping when no fraction slash is
present: locate a case-insensitive exponent marker and parse the exponent with
`parseInt` (a malformed exponent counts as `0`), drop the first decimal point
while counting the fractional digits, strip leading zeros, return the exact
zero when no digit remains, reject any non-digit residue, and otherwise build
`digits * 10^scale` as an exact fraction. -/
def parseDecimalTail (sign : Int) (s : List Char) : Except JsErr (Option RatR) :=
  let ei := s.findIdx? fun c => c.toLower = 'e'
  let es : Int × List Char :=
    match ei with
    | none => (0, s)
    | some i => ((parseIntJS (s.drop (i + 1))).getD 0, s.take i)
  let exponent := es.1
  let s1 := es.2
  let ds : Int × List Char :=
    match s1.findIdx? fun c => c = '.' with
    | none => (0, s1)
    | some i => ((s1.length - i - 1 : Nat), s1.take i ++ s1.drop (i + 1))
  let fractionDigits := ds.1
  let s2 := ds.2
  let digits := s2.dropWhile fun c => c = '0'
  if digits.isEmpty then .ok (some ⟨0, 1⟩)
  else if !digits.all Char.isDigit then .ok none
  else
    let scale := exponent - fractionDigits
    let numerator0 : Int := (digitsToNat digits : Int)
    let numerator1 :=
      if 0 ≤ scale then
        if 0 < scale then numerator0 * pow10BigInt scale else numerator0
      else numerator0
    let denominator : Int := if 0 ≤ scale then 1 else pow10BigInt (-scale)
    let numerator2 := if sign < 0 then -numerator1 else numerator1
    normalizeRational (some ⟨numerator2, denominator⟩)

/-- The string path of `parseRational` (widget.js:78-148), with a fuel
parameter bounding the recursion depth of the `numerator/denominator` fraction
syntax (each recursive call strictly shrinks the string, so `length + 1` fuel
always suffices; the fuel-exhaustion branch is unreachable then). -/
def parseRatFuel : Nat → List Char → Except JsErr (Option RatR)
  | 0, _ => .ok none
  | fuel + 1, l =>
    let t := trimWs l
    if t.isEmpty then .ok none
    else
      let st := stripSign t
      let sign := st.1
      let s := st.2
      if s.isEmpty then .ok none
      else
        match splitFirst '/' s with
        | some (numeratorStr, denominatorStr) =>
          if numeratorStr.isEmpty || denominatorStr.isEmpty then .ok none
          else do
            let numeratorRational ← parseRatFuel fuel numeratorStr
            let denominatorRational ← parseRatFuel fuel denominatorStr
            match numeratorRational, denominatorRational with
            | some nr, some dr =>
              if dr.numerator = 0 then .ok none
              else do
                let fraction ← rationalDivide (some nr) (some dr)
                match fraction with
                | none => .ok none
                | some f =>
                  if sign < 0 then
                    normalizeRational (some ⟨-f.numerator, f.denominator⟩)
                  else .ok (some f)
            | _, _ => .ok none
        | none => parseDecimalTail sign s

/-- The values `parseRational` (widget.js:62-149) can receive from its
callers: `null`/`undefined`, a string, or an already-built rational object
(the `isRational` duck-typing branch).  Floating-point numbers are outside the
scope of this embedding. -/
inductive JsValue where
  | nullV
  | undef
  | str (s : String)
  | rat (r : RatR)

/-- `parseRational` (widget.js:62-149) on the embedded input values:
`null`/`undefined` and the empty string give `null`; a rational object is
normalized; any other string goes through the string path. -/
def parseRational : JsValue → Except JsErr (Option RatR)
  | .nullV => .ok none
  | .undef => .ok none
  | .rat r => normalizeRational (some r)
  | .str s =>
    if s.toList.isEmpty then .ok none
    else parseRatFuel (s.toList.length + 1) s.toList

/-- `formatRationalForInput` (widget.js:273-278). -/
def formatRationalForInput (rational : Option RatR) : String :=
  rationalToString rational

/-- Natural-number twin of `fracDigitsLoop`, used to reason about the
long-division loop once the (nonnegative) inputs are transported from `Int`
to `Nat`. -/
def fracDigitsLoopN : Nat → Nat → Nat → List Nat × Nat
  | 0, rem, _ => ([], rem)
  | g + 1, rem, den =>
    if rem = 0 then ([], rem)
    else
      let p := fracDigitsLoopN g (rem * 10 % den) den
      (rem * 10 / den :: p.1, p.2)

/-- Natural-number twin of `incDigitsRev`. -/
def incDigitsRevN : List Nat → List Nat × Bool
  | [] => ([], true)
  | d :: rest =>
    if 10 ≤ d + 1 then
      let p := incDigitsRevN rest
      (0 :: p.1, p.2)
    else ((d + 1) :: rest, false)

/-- Natural-number twin of `popTrailingZeros`. -/
def trimTrailingZerosN (ds : List Nat) : List Nat :=
  (ds.reverse.dropWhile (fun d => d == 0)).reverse

/-- Base-ten digits of `v`, least significant first, padded to `len`. -/
def revDigits (v len : Nat) : List Nat :=
  (List.range len).map fun i => v / 10 ^ i % 10

/-- Base-ten digits of `v`, most significant first, padded to `len`. -/
def padDigits (v len : Nat) : List Nat :=
  (revDigits v len).reverse

/-- Render a digit list as a string of decimal digit characters. -/
def digitsStr (ds : List Nat) : String :=
  String.join (ds.map fun d => toString d)

/-- Rendering phase shared by the implementation transport and the
specification: integer part, then the trailing-zero-trimmed fractional digits
after a decimal point when any remain. -/
def renderMag (p : Nat × List Nat) : String :=
  toString p.1 ++
    (if (trimTrailingZerosN p.2).isEmpty then ""
     else "." ++ digitsStr (trimTrailingZerosN p.2))

/-- The rounding/carry phase of `rationalToString` (widget.js:236-258)
transported to natural numbers: decide the round-up from the final remainder,
propagate the carry from the least significant digit, and on overflow
increment the integer part and zero the digits. -/
def codeCarried (I D : Nat) (digits : List Nat) (remFinal : Nat) : Nat × List Nat :=
  if (remFinal ≠ 0 && 5 ≤ remFinal * 10 / D) && !digits.isEmpty then
    if (incDigitsRevN digits.reverse).2 then
      (I + 1, (incDigitsRevN digits.reverse).1.reverse.map fun _ => 0)
    else (I, (incDigitsRevN digits.reverse).1.reverse)
  else (I, digits)

/-- The magnitude phase of `rationalToString` transported to natural numbers:
long-division digits, carry phase, rendering. -/
def natMagnitude (N D : Nat) : String :=
  renderMag
    (codeCarried (N / D) D (fracDigitsLoopN 24 (N % D) D).1
      (fracDigitsLoopN 24 (N % D) D).2)

/-- Specification of the rounded 24-digit fractional value: the truncation
`R*10^24/D` of the expansion of the remainder `R = N % D`, plus one when a
nonzero tail remains and the 25th digit is at least five. -/
def specV (N D : Nat) : Nat :=
  if N % D * 10 ^ 24 % D ≠ 0 ∧ 5 ≤ N % D * 10 ^ 25 / D % 10
  then N % D * 10 ^ 24 / D + 1
  else N % D * 10 ^ 24 / D

/-- Specification of the integer part and fractional digit list: a rounded
value of `10^24` carries into the integer part and leaves no fractional
digits; otherwise the 24 padded digits of the rounded value. -/
def specPair (N D : Nat) : Nat × List Nat :=
  if specV N D = 10 ^ 24 then (N / D + 1, [])
  else (N / D, padDigits (specV N D) 24)

/-- Closed-form specification of the formatted magnitude of `N / D`. -/
def specMagnitude (N D : Nat) : String :=
  renderMag (specPair N D)

/-- Closed-form specification of the decimal formatter, following the spec's
description of `toDecimalString`: exact zero renders as `"0"`, the magnitude
of `|numerator| / denominator` is rendered by `specMagnitude`, and a negative
sign is emitted unless the magnitude collapsed to `"0"`. -/
def specToString (r : RatR) : String :=
  if r.numerator = 0 then "0"
  else
    let magnitude := specMagnitude r.numerator.natAbs r.denominator.toNat
    if r.numerator < 0 && magnitude ≠ "0" then "-" ++ magnitude else magnitude

/-- The full `rationalToString` pipeline transported to natural numbers
(magnitude plus the sign handling of widget.js:267-269). -/
def natToStringAlg (neg : Bool) (N D : Nat) : String :=
  if neg && natMagnitude N D ≠ "0" then "-" ++ natMagnitude N D
  else natMagnitude N D

/-- Base-ten value of a digit list (most significant first). -/
def digitsVal (ds : List Nat) : Nat :=
  ds.foldl (fun a d => a * 10 + d) 0

/-- The character for a decimal digit value. -/
def digitChar (d : Nat) : Char :=
  Char.ofNat (48 + d)

/-- The text of a decimal literal: optional minus sign, integer digits, and a
dot followed by the fractional digits when any are present. -/
def litChars (sign : Bool) (intDs fracDs : List Nat) : List Char :=
  (if sign then ['-'] else []) ++ intDs.map digitChar ++
    (if fracDs.isEmpty then [] else '.' :: fracDs.map digitChar)

/-- The canonical minimal decimal form of a decimal literal: the integer value
of the integer digits (dropping leading zeros), the fractional digits with
trailing zeros trimmed, and no sign on a zero value. -/
def canonicalString (sign : Bool) (intDs fracDs : List Nat) : String :=
  let mag := toString (digitsVal intDs) ++
    (if (trimTrailingZerosN fracDs).isEmpty then ""
     else "." ++ digitsStr (trimTrailingZerosN fracDs))
  if sign && mag ≠ "0" then "-" ++ mag else mag

/-- A processed unit record as built by `processUnitsMap` (widget.js:331-342):
identifier, quantity-kind id, reference-unit id, exact multiplier and offset
rationals, UCUM code and the logarithmic flag.  The floating-point mirror
fields `m`/`b` are approximations never used by the conversion path and are
not embedded. -/
structure UnitR where
  iri : String
  qk : Option String
  ref : Option String
  mRational : RatR
  bRational : RatR
  ucum : String
  log : Bool
deriving DecidableEq, Repr

/-- Re-inject an optional rational as a `parseRational` input, as happens when
one conversion's result is fed to the next (widget.js:605-606): JS `null`
stays `null`, a rational object is passed through. -/
def jsOfOpt : Option RatR → JsValue
  | none => .nullV
  | some r => .rat r

/-- `convertToReference` (widget.js:418-428): parse the display value, then
`value * multiplier + offset`.  No check of the `log` flag is performed. -/
def convertToReference (value : JsValue) (unit : Option UnitR) :
    Except JsErr (Option RatR) :=
  match unit with
  | none => .ok none
  | some u => do
    let rationalValue ← parseRational value
    match rationalValue with
    | none => .ok none
    | some rv => do
      let product ← rationalMultiply (some rv) (some u.mRational)
      rationalAdd product (some u.bRational)

/-- `convertFromReference` (widget.js:430-444): parse the reference value,
subtract the offset, then divide by the multiplier; the `try`/`catch` around
the division turns a thrown division error into `null`. -/
def convertFromReference (refValue : JsValue) (unit : Option UnitR) :
    Except JsErr (Option RatR) :=
  match unit with
  | none => .ok none
  | some u => do
    let rationalValue ← parseRational refValue
    match rationalValue with
    | none => .ok none
    | some rv => do
      let numerator ← rationalSubtract (some rv) (some u.bRational)
      match rationalDivide numerator (some u.mRational) with
      | .error _ => .ok none
      | .ok v => .ok v

/-- The display-to-display composition performed by `changeUnit`
(widget.js:605-606): convert to the reference unit with the current unit, then
back with the target unit. -/
def convertValue (value : JsValue) (fromUnit toUnit : Option UnitR) :
    Except JsErr (Option RatR) := do
  let refValue ← convertToReference value fromUnit
  convertFromReference (jsOfOpt refValue) toUnit

/-- The unit-entry filter of widget initialisation (widget.js:630-642): keep
exactly the non-logarithmic units sharing the base unit's quantity kind and
reference unit.  (The subsequent UCUM ordering of the kept entries does not
affect membership and is not embedded.) -/
def selectableUnitEntries (units : List UnitR) (baseUnit : UnitR) : List UnitR :=
  units.filter fun u => !u.log && u.qk == baseUnit.qk && u.ref == baseUnit.ref

/-- The unit-selection phase of `createUnitFloatWidget`'s ready handler
(widget.js:626-645): a logarithmic base unit aborts initialisation, an empty
compatible-entry list aborts initialisation, otherwise the filtered entries
become the selectable units. -/
def widgetInitUnits (units : List UnitR) (baseUnit : UnitR) :
    Except String (List UnitR) :=
  if baseUnit.log then
    .error "Logarithmic units are not supported in this widget."
  else
    let unitEntries := selectableUnitEntries units baseUnit
    if unitEntries.isEmpty then
      .error "No compatible units found for this base unit."
    else .ok unitEntries

/-- The widget state consulted by `changeUnit` (widget.js:484-496, 580-614):
readiness, the selectable units, the currently selected unit identifier, and
the parsed content of the numeric input field (the result of
`readDisplayValue`). -/
structure WidgetState where
  ready : Bool
  available : List UnitR
  currentUnitIri : Option String
  displayValue : Option RatR

/-- `state.availableByIri[iri]` lookup. -/
def lookupUnit (available : List UnitR) (iri : String) : Option UnitR :=
  available.find? fun u => u.iri == iri

/-- `getCurrentUnit` (widget.js:549-554). -/
def getCurrentUnit (st : WidgetState) : Option UnitR :=
  match st.currentUnitIri with
  | none => none
  | some iri => lookupUnit st.available iri

/-- Outcomes of `changeUnit` (widget.js:580-614), abstracting the DOM effects:
which message is shown, or which unit/display value the state moves to. -/
inductive ChangeUnitResult where
  | notReady
  | unsupportedUnit
  | incompatible
  | unitChangedNoValue (newIri : String)
  | converted (newIri : String) (display : String)
  | conversionFailed (newIri : String)
deriving DecidableEq, Repr

/-- `changeUnit` (widget.js:580-614): guard on readiness and availability,
refuse when the current and target units differ in reference unit or quantity
kind, otherwise convert the current display value through the reference
space. -/
def changeUnit (st : WidgetState) (newIri : String) :
    Except JsErr ChangeUnitResult :=
  if !st.ready then .ok .notReady
  else
    match lookupUnit st.available newIri with
    | none => .ok .unsupportedUnit
    | some targetUnit =>
      let currentUnit := getCurrentUnit st
      match currentUnit with
      | some cu =>
        if cu.ref ≠ targetUnit.ref ∨ cu.qk ≠ targetUnit.qk then .ok .incompatible
        else
          match st.displayValue with
          | none => .ok (.unitChangedNoValue targetUnit.iri)
          | some value => do
            let refValue ← convertToReference (.rat value) (some cu)
            let newDisplay ← convertFromReference (jsOfOpt refValue) (some targetUnit)
            match refValue, newDisplay with
            | some _, some nd =>
              .ok (.converted targetUnit.iri (formatRationalForInput (some nd)))
            | _, _ => .ok (.conversionFailed targetUnit.iri)
      | none => .ok (.unitChangedNoValue targetUnit.iri)

/-- Canonical form of a rational per the spec's data-model invariant:
strictly positive denominator and coprime components (which forces the zero
value to be represented as `0/1`). -/
def isCanonical (r : RatR) : Prop :=
  0 < r.denominator ∧ Int.gcd r.numerator r.denominator = 1

instance (r : RatR) : Decidable (isCanonical r) :=
  inferInstanceAs (Decidable (0 < r.denominator ∧ Int.gcd r.numerator r.denominator = 1))

/-- The exact rational value denoted by a `RatR` pair. -/
def val (r : RatR) : ℚ :=
  (r.numerator : ℚ) / (r.denominator : ℚ)

example : parseRational (.str "10") = .ok (some ⟨10, 1⟩) := rfl

example : parseRational (.str "0.001") = .ok (some ⟨1, 1000⟩) := rfl

example : parseRational (.str "-1.5e2") = .ok (some ⟨-150, 1⟩) := rfl

example : parseRational (.str "5/9") = .ok (some ⟨5, 9⟩) := rfl

example : parseRational (.str "5/0") = .ok none := rfl

example : parseRational (.str "1/3") = .ok (some ⟨1, 3⟩) := rfl

example : parseRational (.str "1eX") = .ok (some ⟨1, 1⟩) := rfl

example : parseRational (.str "  -2.50  ") = .ok (some ⟨-5, 2⟩) := rfl

example : parseRational (.str "0.000") = .ok (some ⟨0, 1⟩) := rfl

example : parseRational (.str "-0") = .ok (some ⟨0, 1⟩) := rfl

example : parseRational (.str "abc") = .ok none := rfl

example : parseRational (.str "229835/900") = .ok (some ⟨45967, 180⟩) := rfl

example : parseRational (.str "-1/2/4") = .ok (some ⟨-2, 1⟩) := rfl

theorem euclidFuel_eq_gcd (f : Nat) : ∀ x y : Nat, y < f → euclidFuel f x y = Nat.gcd y x := by
  induction f with
  | zero => intro x y h; omega
  | succ f ih =>
    intro x y h
    by_cases hy : y = 0
    · simp [euclidFuel, hy]
    · have hylt : x % y < y := Nat.mod_lt x (Nat.pos_of_ne_zero hy)
      rw [euclidFuel, if_neg hy, ih y (x % y) (by omega), Nat.gcd_rec y x]

theorem gcdBigInt_eq (a b : Int) : gcdBigInt a b = (Int.gcd a b : Int) := by
  unfold gcdBigInt
  rw [euclidFuel_eq_gcd _ _ _ (Nat.lt_succ_self _), Nat.gcd_comm]
  rfl

/-- Unfolding equation for `normalizeRational` on a present rational. -/
theorem normalizeRational_some (n d : Int) :
    normalizeRational (some ⟨n, d⟩) =
      if d = 0 then .error .invalidRational
      else if n = 0 then .ok (some ⟨0, 1⟩)
      else
        let n1 := if d < 0 then -n else n
        let d1 := if d < 0 then -d else d
        let g := gcdBigInt (if n1 < 0 then -n1 else n1) d1
        if 1 < g then .ok (some ⟨n1.tdiv g, d1.tdiv g⟩)
        else .ok (some ⟨n1, d1⟩) := rfl

theorem isCanonical_zero : isCanonical ⟨0, 1⟩ := by
  constructor <;> decide

/-- `normalizeRational` on any pair with nonzero denominator succeeds and
produces a canonical pair denoting the same rational value (stated by cross
multiplication). -/
theorem normalizeRational_spec (n d : Int) (hd : d ≠ 0) :
    ∃ r' : RatR, normalizeRational (some ⟨n, d⟩) = .ok (some r') ∧ isCanonical r' ∧
      r'.numerator * d = n * r'.denominator := by
  by_cases hn : n = 0
  · refine ⟨⟨0, 1⟩, ?_, isCanonical_zero, ?_⟩
    · rw [normalizeRational_some, if_neg hd, if_pos hn]
    · simp [hn]
  · set n1 := if d < 0 then -n else n with hn1
    set d1 := if d < 0 then -d else d with hd1
    have hd1pos : 0 < d1 := by rw [hd1]; split <;> omega
    have hn1ne : n1 ≠ 0 := by rw [hn1]; split <;> simpa using hn
    have hgabs : gcdBigInt (if n1 < 0 then -n1 else n1) d1 = (Int.gcd n1 d1 : Int) := by
      rw [gcdBigInt_eq]
      congr 1
      split
      · rw [Int.neg_gcd]
      · rfl
    set g : Nat := Int.gcd n1 d1 with hgdef
    have hgpos : 0 < g := by
      rcases Nat.eq_zero_or_pos g with h0 | h
      · exact absurd (Int.gcd_eq_zero_iff.mp h0).1 hn1ne
      · exact h
    obtain ⟨a, ha⟩ : ((g : Int)) ∣ n1 := Int.gcd_dvd_left
    obtain ⟨b, hb⟩ : ((g : Int)) ∣ d1 := Int.gcd_dvd_right
    have hgne : (g : Int) ≠ 0 := by exact_mod_cast hgpos.ne'
    have hbpos : 0 < b := by
      by_contra hble
      push_neg at hble
      have : (g : Int) * b ≤ 0 :=
        mul_nonpos_of_nonneg_of_nonpos (by positivity) hble
      omega
    have hane : a ≠ 0 := by
      intro h0
      rw [h0, mul_zero] at ha
      exact hn1ne ha
    have hdiva : n1.tdiv g = a := by rw [ha, Int.mul_tdiv_cancel_left _ hgne]
    have hdivb : d1.tdiv g = b := by rw [hb, Int.mul_tdiv_cancel_left _ hgne]
    have hcop : Int.gcd a b = 1 := by
      have h1 : a = n1 / (g : Int) := by rw [ha, Int.mul_ediv_cancel_left _ hgne]
      have h2 : b = d1 / (g : Int) := by rw [hb, Int.mul_ediv_cancel_left _ hgne]
      rw [h1, h2, hgdef]
      exact Int.gcd_div_gcd_div_gcd (hgdef ▸ hgpos)
    have hcross : a * d = n * b := by
      rcases lt_or_ge d 0 with hdneg | hdpos
      · have e1 : n1 = -n := by rw [hn1, if_pos hdneg]
        have e2 : d1 = -d := by rw [hd1, if_pos hdneg]
        have h1 : (g : Int) * b = -d := by rw [← hb, e2]
        have h2 : (g : Int) * a = -n := by rw [← ha, e1]
        linear_combination a * h1 - b * h2
      · have e1 : n1 = n := by rw [hn1, if_neg (not_lt.mpr hdpos)]
        have e2 : d1 = d := by rw [hd1, if_neg (not_lt.mpr hdpos)]
        rw [e1] at ha
        rw [e2] at hb
        rw [ha, hb]
        ring
    have houtcanon : isCanonical ⟨a, b⟩ := ⟨hbpos, hcop⟩
    rw [normalizeRational_some, if_neg hd, if_neg hn]
    simp only [← hn1, ← hd1, hgabs]
    by_cases hg1 : 1 < (g : Int)
    · refine ⟨⟨a, b⟩, ?_, houtcanon, hcross⟩
      rw [if_pos hg1, hdiva, hdivb]
    · have hgeq1 : (g : Int) = 1 := by omega
      refine ⟨⟨a, b⟩, ?_, houtcanon, hcross⟩
      rw [if_neg hg1]
      have e3 : n1 = a := by rw [ha, hgeq1, one_mul]
      have e4 : d1 = b := by rw [hb, hgeq1, one_mul]
      rw [e3, e4]

/-- `normalizeRational` is the identity on canonical rationals. -/
theorem normalizeRational_canonical (r : RatR) (h : isCanonical r) :
    normalizeRational (some r) = .ok (some r) := by
  obtain ⟨n, d⟩ := r
  obtain ⟨hdpos, hgcd⟩ := h
  simp only at hdpos hgcd
  rw [normalizeRational_some, if_neg (by omega : ¬d = 0)]
  by_cases hn : n = 0
  · subst hn
    have : d.natAbs = 1 := by simpa [Int.gcd] using hgcd
    have : d = 1 := by omega
    simp [this]
  · rw [if_neg hn]
    have hnd : ¬d < 0 := by omega
    simp only [if_neg hnd]
    have hgb : gcdBigInt (if n < 0 then -n else n) d = (Int.gcd n d : Int) := by
      rw [gcdBigInt_eq]
      congr 1
      split
      · rw [Int.neg_gcd]
      · rfl
    rw [hgb, hgcd]
    norm_num

/-- Two canonical rationals denoting the same value are equal. -/
theorem canonical_unique (r s : RatR) (hr : isCanonical r) (hs : isCanonical s)
    (h : r.numerator * s.denominator = s.numerator * r.denominator) : r = s := by
  obtain ⟨rn, rd⟩ := r
  obtain ⟨sn, sd⟩ := s
  obtain ⟨hrd, hrg⟩ := hr
  obtain ⟨hsd, hsg⟩ := hs
  simp only at hrd hrg hsd hsg h ⊢
  have hrcop : IsCoprime rn rd := Int.gcd_eq_one_iff_coprime.mp hrg
  have hscop : IsCoprime sn sd := Int.gcd_eq_one_iff_coprime.mp hsg
  have h1 : rd ∣ sd := by
    have hdvd : rd ∣ rn * sd := ⟨sn, by linarith [h]⟩
    exact (hrcop.symm.dvd_of_dvd_mul_left) hdvd
  have h2 : sd ∣ rd := by
    have hdvd : sd ∣ sn * rd := ⟨rn, by linarith [h]⟩
    exact (hscop.symm.dvd_of_dvd_mul_left) hdvd
  have hdd : rd = sd := Int.dvd_antisymm (by omega) (by omega) h1 h2
  subst hdd
  have hnn : rn = sn := mul_right_cancel₀ (by omega : rd ≠ 0) h
  rw [hnn]

theorem val_cross (r s : RatR) (hr : r.denominator ≠ 0) (hs : s.denominator ≠ 0) :
    val r = val s ↔ r.numerator * s.denominator = s.numerator * r.denominator := by
  unfold val
  rw [div_eq_div_iff (by exact_mod_cast hr) (by exact_mod_cast hs)]
  constructor
  · intro h; exact_mod_cast h
  · intro h; exact_mod_cast h

theorem val_zero_iff (r : RatR) (hd : r.denominator ≠ 0) :
    val r = 0 ↔ r.numerator = 0 := by
  unfold val
  rw [div_eq_iff (by exact_mod_cast hd)]
  norm_num

/-- The canonical rational with value zero is `0/1`. -/
theorem canonical_val_zero (r : RatR) (h : isCanonical r) (hv : val r = 0) :
    r = ⟨0, 1⟩ := by
  have hn : r.numerator = 0 := (val_zero_iff r (by have := h.1; omega)).mp hv
  exact canonical_unique r ⟨0, 1⟩ h isCanonical_zero (by simp [hn])

/-- `normalizeRational` on a nonzero denominator, value-level form. -/
theorem normalizeRational_val (n d : Int) (hd : d ≠ 0) :
    ∃ r' : RatR, normalizeRational (some ⟨n, d⟩) = .ok (some r') ∧ isCanonical r' ∧
      val r' = val ⟨n, d⟩ := by
  obtain ⟨r', heq, hcan, hcross⟩ := normalizeRational_spec n d hd
  refine ⟨r', heq, hcan, ?_⟩
  rw [val_cross r' ⟨n, d⟩ (by have := hcan.1; omega) hd]
  exact hcross

theorem rationalAdd_val (a b : RatR) (ha : a.denominator ≠ 0) (hb : b.denominator ≠ 0) :
    ∃ c : RatR, rationalAdd (some a) (some b) = .ok (some c) ∧ isCanonical c ∧
      val c = val a + val b := by
  have hab : a.denominator * b.denominator ≠ 0 := mul_ne_zero ha hb
  obtain ⟨c, heq, hcan, hval⟩ :=
    normalizeRational_val
      (a.numerator * b.denominator + b.numerator * a.denominator)
      (a.denominator * b.denominator) hab
  refine ⟨c, ?_, hcan, ?_⟩
  · rw [rationalAdd]
    exact heq
  · rw [hval]
    unfold val
    push_cast
    rw [div_add_div _ _ (by exact_mod_cast ha) (by exact_mod_cast hb)]
    ring_nf

theorem rationalSubtract_val (a b : RatR) (ha : a.denominator ≠ 0) (hb : b.denominator ≠ 0) :
    ∃ c : RatR, rationalSubtract (some a) (some b) = .ok (some c) ∧ isCanonical c ∧
      val c = val a - val b := by
  obtain ⟨c, heq, hcan, hval⟩ := rationalAdd_val a ⟨-b.numerator, b.denominator⟩ ha hb
  refine ⟨c, ?_, hcan, ?_⟩
  · rw [rationalSubtract]
    exact heq
  · rw [hval]
    unfold val
    push_cast
    ring

theorem rationalMultiply_val (a b : RatR) (ha : a.denominator ≠ 0) (hb : b.denominator ≠ 0) :
    ∃ c : RatR, rationalMultiply (some a) (some b) = .ok (some c) ∧ isCanonical c ∧
      val c = val a * val b := by
  by_cases h0 : a.numerator = 0 ∨ b.numerator = 0
  · refine ⟨rationalZero, ?_, isCanonical_zero, ?_⟩
    · rw [rationalMultiply, if_pos h0]
    · have : val a * val b = 0 := by
        rcases h0 with h | h
        · rw [(val_zero_iff a ha).mpr h, zero_mul]
        · rw [(val_zero_iff b hb).mpr h, mul_zero]
      rw [this]
      unfold val rationalZero
      norm_num
  · obtain ⟨c, heq, hcan, hval⟩ :=
      normalizeRational_val (a.numerator * b.numerator)
        (a.denominator * b.denominator) (mul_ne_zero ha hb)
    refine ⟨c, ?_, hcan, ?_⟩
    · rw [rationalMultiply, if_neg h0]
      exact heq
    · rw [hval]
      unfold val
      push_cast
      rw [div_mul_div_comm]

theorem rationalDivide_val (a b : RatR) (ha : a.denominator ≠ 0) (_hb : b.denominator ≠ 0)
    (hbn : b.numerator ≠ 0) :
    ∃ c : RatR, rationalDivide (some a) (some b) = .ok (some c) ∧ isCanonical c ∧
      val c = val a / val b := by
  by_cases h0 : a.numerator = 0
  · refine ⟨rationalZero, ?_, isCanonical_zero, ?_⟩
    · rw [rationalDivide, if_neg hbn, if_pos h0]
    · rw [(val_zero_iff a ha).mpr h0, zero_div]
      unfold val rationalZero
      norm_num
  · obtain ⟨c, heq, hcan, hval⟩ :=
      normalizeRational_val (a.numerator * b.denominator)
        (a.denominator * b.numerator) (mul_ne_zero ha hbn)
    refine ⟨c, ?_, hcan, ?_⟩
    · rw [rationalDivide, if_neg hbn, if_neg h0]
      exact heq
    · rw [hval]
      unfold val
      push_cast
      rw [div_div_div_eq]

theorem bind_ok_ex {ε α β : Type} (a : α) (f : α → Except ε β) :
    (Except.ok a : Except ε α) >>= f = f a := rfl

/-- **C1.** For every unit whose multiplier is a nonzero canonical rational
and whose offset is canonical, and every canonical rational display value `v`,
`convertFromReference (convertToReference v u) u` returns exactly `v`: the
round trip through the reference space has no drift.  (The concrete
multiplier-`0.001` scenario and the Fahrenheit-like affine unit are
instantiated in the witness.) -/
theorem claim_C1_conversion_inverse (u : UnitR) (v : RatR)
    (hm : isCanonical u.mRational) (hmn : u.mRational.numerator ≠ 0)
    (hb : isCanonical u.bRational) (hv : isCanonical v) :
    convertValue (.rat v) (some u) (some u) = .ok (some v) := by
  have hmd : u.mRational.denominator ≠ 0 := by have := hm.1; omega
  have hbd : u.bRational.denominator ≠ 0 := by have := hb.1; omega
  have hvd : v.denominator ≠ 0 := by have := hv.1; omega
  have hvalm : val u.mRational ≠ 0 := by
    unfold val
    exact div_ne_zero (by exact_mod_cast hmn) (by exact_mod_cast hmd)
  have hparse_v : parseRational (.rat v) = .ok (some v) := normalizeRational_canonical v hv
  obtain ⟨p, heqM, hcanP, hvalP⟩ := rationalMultiply_val v u.mRational hvd hmd
  have hpd : p.denominator ≠ 0 := by have := hcanP.1; omega
  obtain ⟨q, heqA, hcanQ, hvalQ⟩ := rationalAdd_val p u.bRational hpd hbd
  have hqd : q.denominator ≠ 0 := by have := hcanQ.1; omega
  have hToRef : convertToReference (.rat v) (some u) = .ok (some q) := by
    simp only [convertToReference, hparse_v, bind_ok_ex, heqM, heqA]
  have hparse_q : parseRational (.rat q) = .ok (some q) := normalizeRational_canonical q hcanQ
  obtain ⟨s, heqS, hcanS, hvalS⟩ := rationalSubtract_val q u.bRational hqd hbd
  have hsd : s.denominator ≠ 0 := by have := hcanS.1; omega
  obtain ⟨c, heqD, hcanC, hvalC⟩ := rationalDivide_val s u.mRational hsd hmd hmn
  have hvc : val c = val v := by
    rw [hvalC, hvalS, hvalQ, hvalP]
    field_simp
  have hcv : c = v := by
    refine canonical_unique c v hcanC hv ?_
    exact (val_cross c v (by have := hcanC.1; omega) hvd).mp hvc
  have hFromRef : convertFromReference (.rat q) (some u) = .ok (some v) := by
    simp only [convertFromReference, hparse_q, bind_ok_ex, heqS, heqD, hcv]
  simp only [convertValue, hToRef, bind_ok_ex, jsOfOpt, hFromRef]

/-- Witness for C1: the milliampere-style unit (multiplier `0.001`, offset
`0`) round-trips the display value `10` through the exact reference value
`1/100`, and a Fahrenheit-like affine unit (multiplier `5/9`, exact-fraction
offset `45967/180`, i.e. `229835/900` in lowest terms) round-trips `32`
through exactly `273.15 = 5463/20`. -/
theorem claim_C1_conversion_inverse_witness :
    convertValue (.rat ⟨10, 1⟩)
        (some ⟨"milli", none, none, ⟨1, 1000⟩, ⟨0, 1⟩, "mA", false⟩)
        (some ⟨"milli", none, none, ⟨1, 1000⟩, ⟨0, 1⟩, "mA", false⟩) = .ok (some ⟨10, 1⟩) ∧
    convertToReference (.rat ⟨10, 1⟩)
        (some ⟨"milli", none, none, ⟨1, 1000⟩, ⟨0, 1⟩, "mA", false⟩) = .ok (some ⟨1, 100⟩) ∧
    convertFromReference (.rat ⟨1, 100⟩)
        (some ⟨"milli", none, none, ⟨1, 1000⟩, ⟨0, 1⟩, "mA", false⟩) = .ok (some ⟨10, 1⟩) ∧
    convertValue (.rat ⟨32, 1⟩)
        (some ⟨"degF", none, none, ⟨5, 9⟩, ⟨45967, 180⟩, "[degF]", false⟩)
        (some ⟨"degF", none, none, ⟨5, 9⟩, ⟨45967, 180⟩, "[degF]", false⟩) = .ok (some ⟨32, 1⟩) ∧
    convertToReference (.rat ⟨32, 1⟩)
        (some ⟨"degF", none, none, ⟨5, 9⟩, ⟨45967, 180⟩, "[degF]", false⟩) = .ok (some ⟨5463, 20⟩) := by
  refine ⟨?_, rfl, rfl, ?_, rfl⟩
  · exact claim_C1_conversion_inverse _ ⟨10, 1⟩ (by decide) (by decide) (by decide) (by decide)
  · exact claim_C1_conversion_inverse _ ⟨32, 1⟩ (by decide) (by decide) (by decide) (by decide)

/-- **C2 counterexample.** A unit flagged logarithmic (`log = true`, here with
multiplier `2` and offset `0`) is converted arithmetically by both
`convertToReference` and `convertFromReference`: both return a numeric result
instead of failing with an `UnsupportedUnitKind` condition, refuting the claim
that the conversion operations fail fast on logarithmic units. -/
theorem claim_C2_counterexample :
    convertToReference (.rat ⟨3, 1⟩)
        (some ⟨"logUnit", some "level", some "refLevel", ⟨2, 1⟩, ⟨0, 1⟩, "B", true⟩) =
      .ok (some ⟨6, 1⟩) ∧
    convertFromReference (.rat ⟨6, 1⟩)
        (some ⟨"logUnit", some "level", some "refLevel", ⟨2, 1⟩, ⟨0, 1⟩, "B", true⟩) =
      .ok (some ⟨3, 1⟩) :=
  ⟨rfl, rfl⟩

/-- **C2 amended.** The conversion operations themselves perform no
logarithmic-unit check; instead the widget layer rejects logarithmic units
during initialisation: a logarithmic base unit makes initialisation fail with
the logarithmic-units error, and every selectable unit entry offered by an
initialised widget has `log = false`, so the widget never invokes a conversion
with a logarithmic unit. -/
theorem claim_C2_amended (units : List UnitR) (baseUnit : UnitR) :
    (baseUnit.log = true →
      widgetInitUnits units baseUnit =
        .error "Logarithmic units are not supported in this widget.") ∧
    (∀ entries, widgetInitUnits units baseUnit = .ok entries →
      ∀ u ∈ entries, u.log = false) := by
  constructor
  · intro h
    rw [widgetInitUnits, if_pos h]
  · intro entries hok u hu
    simp only [widgetInitUnits] at hok
    split at hok
    · exact absurd hok (by simp)
    · split at hok
      · exact absurd hok (by simp)
      · cases hok
        have := List.of_mem_filter hu
        simp only [Bool.and_eq_true, Bool.not_eq_true'] at this
        exact this.1.1

/-- Witness for the amended C2: a logarithmic base unit aborts widget
initialisation, and a catalog holding one logarithmic and one affine unit of
the same family yields a selectable list without the logarithmic one. -/
theorem claim_C2_amended_witness :
    widgetInitUnits
        [⟨"a", some "q", some "r", ⟨1, 1⟩, ⟨0, 1⟩, "A", false⟩]
        ⟨"logBase", some "q", some "r", ⟨1, 1⟩, ⟨0, 1⟩, "B", true⟩ =
      .error "Logarithmic units are not supported in this widget." ∧
    (∀ u ∈ selectableUnitEntries
        [⟨"a", some "q", some "r", ⟨1, 1⟩, ⟨0, 1⟩, "A", false⟩,
         ⟨"logB", some "q", some "r", ⟨2, 1⟩, ⟨0, 1⟩, "B", true⟩]
        ⟨"a", some "q", some "r", ⟨1, 1⟩, ⟨0, 1⟩, "A", false⟩, u.log = false) := by
  constructor
  · exact (claim_C2_amended
      [⟨"a", some "q", some "r", ⟨1, 1⟩, ⟨0, 1⟩, "A", false⟩]
      ⟨"logBase", some "q", some "r", ⟨1, 1⟩, ⟨0, 1⟩, "B", true⟩).1 rfl
  · intro u hu
    exact (claim_C2_amended
      [⟨"a", some "q", some "r", ⟨1, 1⟩, ⟨0, 1⟩, "A", false⟩,
       ⟨"logB", some "q", some "r", ⟨2, 1⟩, ⟨0, 1⟩, "B", true⟩]
      ⟨"a", some "q", some "r", ⟨1, 1⟩, ⟨0, 1⟩, "A", false⟩).2
      _ rfl u hu

/-- **C3 counterexample.** For two units with different `referenceId` (and
different `quantityKindId`), the core conversion composition invoked directly
returns the numeric result `5/2` instead of failing: the core operations do
not refuse when the caller-side compatibility check is bypassed. -/
theorem claim_C3_counterexample :
    convertValue (.rat ⟨5, 1⟩)
        (some ⟨"kg", some "mass", some "refMass", ⟨1, 1⟩, ⟨0, 1⟩, "kg", false⟩)
        (some ⟨"m", some "length", some "refLength", ⟨2, 1⟩, ⟨0, 1⟩, "m", false⟩) =
      .ok (some ⟨5, 2⟩) := rfl

/-- **C3 amended.** The incompatibility rejection lives in the caller:
`changeUnit` refuses with the incompatible-units outcome, before any
conversion is attempted, whenever the current and target units differ in
reference unit or quantity kind; the core conversion operations themselves do
not re-check compatibility and produce a number when invoked directly
(counterexample theorem). -/
theorem claim_C3_amended (st : WidgetState) (newIri : String) (cu tu : UnitR)
    (hready : st.ready = true)
    (htu : lookupUnit st.available newIri = some tu)
    (hcu : getCurrentUnit st = some cu)
    (hdiff : cu.ref ≠ tu.ref ∨ cu.qk ≠ tu.qk) :
    changeUnit st newIri = .ok .incompatible := by
  rw [changeUnit, hready]
  simp only [Bool.not_true, Bool.false_eq_true, if_false, htu, hcu]
  rw [if_pos hdiff]

/-- Witness for the amended C3: a ready widget on a mass unit refuses to
switch to a length unit. -/
theorem claim_C3_amended_witness :
    changeUnit
      ⟨true,
       [⟨"kg", some "mass", some "refMass", ⟨1, 1⟩, ⟨0, 1⟩, "kg", false⟩,
        ⟨"m", some "length", some "refLength", ⟨2, 1⟩, ⟨0, 1⟩, "m", false⟩],
       some "kg", some ⟨5, 1⟩⟩ "m" = .ok .incompatible := by
  refine claim_C3_amended _ "m"
    ⟨"kg", some "mass", some "refMass", ⟨1, 1⟩, ⟨0, 1⟩, "kg", false⟩
    ⟨"m", some "length", some "refLength", ⟨2, 1⟩, ⟨0, 1⟩, "m", false⟩
    rfl rfl rfl ?_
  left
  simp

/-- **C7.** `rationalDivide` fails with the division-by-zero condition
whenever the divisor's numerator is zero; with a nonzero divisor numerator it
returns the exact zero `0/1` immediately when the dividend's numerator is
zero (regardless of the divisor's denominator, i.e. without touching the
divisor further); otherwise it returns the normalization of
`(a.num * b.den) / (a.den * b.num)`. -/
theorem claim_C7_divide (a b : RatR) :
    (b.numerator = 0 → rationalDivide (some a) (some b) = .error .divisionByZero) ∧
    (b.numerator ≠ 0 → a.numerator = 0 → rationalDivide (some a) (some b) = .ok (some ⟨0, 1⟩)) ∧
    (b.numerator ≠ 0 → a.numerator ≠ 0 → rationalDivide (some a) (some b) =
      normalizeRational (some ⟨a.numerator * b.denominator, a.denominator * b.numerator⟩)) := by
  refine ⟨fun h => ?_, fun hb ha => ?_, fun hb ha => ?_⟩
  · rw [rationalDivide, if_pos h]
  · rw [rationalDivide, if_neg hb, if_pos ha]
    rfl
  · rw [rationalDivide, if_neg hb, if_neg ha]

/-- Witness for C7: division by the zero rational fails, `0/(3/4)` is the
exact zero even when the divisor carries an invalid denominator, and `1/2`
divided by `3/4` is the normalization of `4/6`. -/
theorem claim_C7_divide_witness :
    rationalDivide (some ⟨1, 2⟩) (some ⟨0, 1⟩) = .error .divisionByZero ∧
    rationalDivide (some ⟨0, 1⟩) (some ⟨3, 0⟩) = .ok (some ⟨0, 1⟩) ∧
    rationalDivide (some ⟨1, 2⟩) (some ⟨3, 4⟩) =
      normalizeRational (some ⟨1 * 4, 2 * 3⟩) := by
  refine ⟨(claim_C7_divide ⟨1, 2⟩ ⟨0, 1⟩).1 rfl,
    (claim_C7_divide ⟨0, 1⟩ ⟨3, 0⟩).2.1 (by decide) rfl,
    (claim_C7_divide ⟨1, 2⟩ ⟨3, 4⟩).2.2 (by decide) (by decide)⟩

theorem isCanonical_neg (r : RatR) (h : isCanonical r) :
    isCanonical ⟨-r.numerator, r.denominator⟩ := by
  refine ⟨h.1, ?_⟩
  show Int.gcd (-r.numerator) r.denominator = 1
  rw [Int.neg_gcd]
  exact h.2

/-- **C10.** A `null` operand makes `rationalMultiply` and `rationalDivide`
return `null` (absence propagates); by contrast `rationalAdd` and
`rationalSubtract` treat an absent operand as zero: the present canonical
operand is returned unchanged (negated, for the subtrahend position), and two
absent operands give `null`. -/
theorem claim_C10_null_propagation (o : Option RatR) (r : RatR) (h : isCanonical r) :
    rationalMultiply none o = .ok none ∧
    rationalMultiply (some r) none = .ok none ∧
    rationalDivide none o = .ok none ∧
    rationalDivide (some r) none = .ok none ∧
    rationalAdd (some r) none = .ok (some r) ∧
    rationalAdd none (some r) = .ok (some r) ∧
    rationalSubtract (some r) none = .ok (some r) ∧
    rationalSubtract none (some r) = .ok (some ⟨-r.numerator, r.denominator⟩) ∧
    rationalAdd none none = .ok none ∧
    rationalSubtract none none = .ok none := by
  have hnorm := normalizeRational_canonical r h
  have hneg := normalizeRational_canonical _ (isCanonical_neg r h)
  exact ⟨rfl, rfl, rfl, rfl, hnorm, hnorm, hnorm, hneg, rfl, rfl⟩

/-- Witness for C10 at the canonical rational `3/2`. -/
theorem claim_C10_null_propagation_witness :
    rationalMultiply none (some ⟨3, 2⟩) = .ok none ∧
    rationalMultiply (some ⟨3, 2⟩) none = .ok none ∧
    rationalDivide none (some ⟨3, 2⟩) = .ok none ∧
    rationalDivide (some ⟨3, 2⟩) none = .ok none ∧
    rationalAdd (some ⟨3, 2⟩) none = .ok (some ⟨3, 2⟩) ∧
    rationalAdd none (some ⟨3, 2⟩) = .ok (some ⟨3, 2⟩) ∧
    rationalSubtract (some ⟨3, 2⟩) none = .ok (some ⟨3, 2⟩) ∧
    rationalSubtract none (some ⟨3, 2⟩) = .ok (some ⟨-3, 2⟩) ∧
    rationalAdd none none = .ok none ∧
    rationalSubtract none none = .ok none :=
  claim_C10_null_propagation (some ⟨3, 2⟩) ⟨3, 2⟩ (by decide)

theorem powFuel_eq (f : Nat) : ∀ (base : Int) (power : Nat) (result : Int), power < f →
    powFuel f base power result = result * base ^ power := by
  induction f with
  | zero => intro base power result h; omega
  | succ f ih =>
    intro base power result h
    by_cases hp : power = 0
    · subst hp
      simp [powFuel]
    · rw [powFuel, if_neg hp]
      have hlt : power / 2 < f := by
        have := Nat.div_lt_self (Nat.pos_of_ne_zero hp) (by norm_num : 1 < 2)
        omega
      rw [ih (base * base) (power / 2) _ hlt]
      have hsq : (base * base) ^ (power / 2) = base ^ (2 * (power / 2)) := by
        rw [two_mul, pow_add, ← mul_pow]
      by_cases he : power % 2 = 1
      · rw [if_pos he, hsq]
        have hp2 : 2 * (power / 2) + 1 = power := by omega
        calc result * base * base ^ (2 * (power / 2))
            = result * base ^ (2 * (power / 2) + 1) := by ring
          _ = result * base ^ power := by rw [hp2]
      · rw [if_neg he, hsq]
        have hp2 : 2 * (power / 2) = power := by omega
        rw [hp2]

theorem pow10BigInt_eq (e : Int) : pow10BigInt e = if e ≤ 0 then 1 else 10 ^ e.toNat := by
  unfold pow10BigInt
  by_cases he : e ≤ 0
  · rw [if_pos he, if_pos he]
  · rw [if_neg he, if_neg he, powFuel_eq _ _ _ _ (Nat.lt_succ_self _), one_mul]

theorem pow10BigInt_pos (e : Int) : 0 < pow10BigInt e := by
  rw [pow10BigInt_eq]
  split
  · norm_num
  · positivity

/-- Any `ok`-valued output of `normalizeRational` holding a rational is
canonical. -/
theorem normalizeRational_ok_canonical (o o' : Option RatR)
    (h : normalizeRational o = .ok o') : ∀ r, o' = some r → isCanonical r := by
  intro r hr
  subst hr
  cases o with
  | none =>
    simp only [normalizeRational] at h
    cases h
  | some x =>
    obtain ⟨n, d⟩ := x
    by_cases hd : d = 0
    · rw [normalizeRational_some, if_pos hd] at h
      cases h
    · obtain ⟨r', heq, hcan, _⟩ := normalizeRational_spec n d hd
      rw [heq] at h
      simp only [Except.ok.injEq, Option.some.injEq] at h
      rw [← h]
      exact hcan

example : rationalToString (some ⟨1, 2⟩) = "0.5" := rfl

example : rationalToString (some ⟨-3, 2⟩) = "-1.5" := rfl

example : rationalToString (some ⟨1, 3⟩) = "0.333333333333333333333333" := rfl

example : rationalToString (some ⟨2, 3⟩) = "0.666666666666666666666667" := rfl

example : rationalToString (some ⟨0, 1⟩) = "0" := rfl

example : normalizeRational (some ⟨6, -4⟩) = .ok (some ⟨-3, 2⟩) := rfl

example : rationalDivide (some ⟨1, 2⟩) (some ⟨3, 4⟩) = .ok (some ⟨2, 3⟩) := rfl

theorem normalizeRational_good (n d : Int) (hd : d ≠ 0) :
    ∃ o, normalizeRational (some ⟨n, d⟩) = .ok o ∧ ∀ r, o = some r → isCanonical r := by
  obtain ⟨r', heq, hcan, _⟩ := normalizeRational_spec n d hd
  refine ⟨some r', heq, ?_⟩
  intro r h
  cases h
  exact hcan

theorem parseDecimalTail_good (sign : Int) (s : List Char) :
    ∃ o, parseDecimalTail sign s = .ok o ∧ ∀ r, o = some r → isCanonical r := by
  simp only [parseDecimalTail]
  split
  · exact ⟨some ⟨0, 1⟩, rfl, by intro r h; cases h; exact isCanonical_zero⟩
  · split
    · exact ⟨none, rfl, by intro r h; cases h⟩
    · apply normalizeRational_good
      split
      · norm_num
      · exact (pow10BigInt_pos _).ne'

/-- Every fuelled run of the string parser returns an `ok` outcome, and any
rational it returns is canonical. -/
theorem parseRatFuel_good (fuel : Nat) : ∀ l : List Char,
    ∃ o, parseRatFuel fuel l = .ok o ∧ ∀ r, o = some r → isCanonical r := by
  induction fuel with
  | zero =>
    intro l
    exact ⟨none, rfl, by intro r h; cases h⟩
  | succ fuel ih =>
    intro l
    simp only [parseRatFuel]
    split
    · exact ⟨none, rfl, by intro r h; cases h⟩
    · split
      · exact ⟨none, rfl, by intro r h; cases h⟩
      · split
        · split
          · exact ⟨none, rfl, by intro r h; cases h⟩
          · rename_i numeratorStr denominatorStr _heq _hne
            obtain ⟨o1, h1, c1⟩ := ih numeratorStr
            obtain ⟨o2, h2, c2⟩ := ih denominatorStr
            rw [h1]
            simp only [bind_ok_ex]
            rw [h2]
            simp only [bind_ok_ex]
            rcases o1 with _ | nr
            · exact ⟨none, rfl, by intro r h; cases h⟩
            · rcases o2 with _ | dr
              · exact ⟨none, rfl, by intro r h; cases h⟩
              · have hnr := c1 nr rfl
                have hdr := c2 dr rfl
                dsimp only
                by_cases hdz : dr.numerator = 0
                · rw [if_pos hdz]
                  exact ⟨none, rfl, by intro r h; cases h⟩
                · rw [if_neg hdz]
                  obtain ⟨c, heqD, hcanC, _⟩ :=
                    rationalDivide_val nr dr (by have := hnr.1; omega)
                      (by have := hdr.1; omega) hdz
                  rw [heqD]
                  simp only [bind_ok_ex]
                  by_cases hs : (stripSign (trimWs l)).1 < 0
                  · rw [if_pos hs]
                    refine ⟨some ⟨-c.numerator, c.denominator⟩,
                      normalizeRational_canonical _ (isCanonical_neg c hcanC), ?_⟩
                    intro r h
                    cases h
                    exact isCanonical_neg c hcanC
                  · rw [if_neg hs]
                    refine ⟨some c, rfl, ?_⟩
                    intro r h
                    cases h
                    exact hcanC
        · exact parseDecimalTail_good _ _

/-- **C9.** The parser never throws for string, `null`, or `undefined` input:
every string yields an `ok` outcome, `null`/`undefined`/the empty string yield
the `null` absence result (not zero), and the fraction form `"5/0"` with a
zero denominator yields `null` rather than the division-by-zero failure
reserved for `rationalDivide`. -/
theorem claim_C9_parser_never_throws :
    (∀ s : String, ∃ o, parseRational (.str s) = .ok o) ∧
    parseRational .nullV = .ok none ∧
    parseRational .undef = .ok none ∧
    parseRational (.str "") = .ok none ∧
    parseRational (.str "5/0") = .ok none := by
  refine ⟨?_, rfl, rfl, rfl, rfl⟩
  intro s
  simp only [parseRational]
  split
  · exact ⟨none, rfl⟩
  · obtain ⟨o, h, _⟩ := parseRatFuel_good _ s.toList
    exact ⟨o, h⟩

/-- **C8.** Every rational produced by `parseRational`, `rationalAdd`,
`rationalSubtract`, `rationalMultiply`, `rationalDivide`, or
`normalizeRational` is in canonical form (positive denominator, coprime
components); a canonical rational with zero numerator is exactly `0/1`; and
normalization is idempotent: re-normalizing any successful normalization
output returns it unchanged. -/
theorem claim_C8_canonical_form :
    (∀ v o r, parseRational v = .ok o → o = some r → isCanonical r) ∧
    (∀ a b o r, rationalAdd a b = .ok o → o = some r → isCanonical r) ∧
    (∀ a b o r, rationalSubtract a b = .ok o → o = some r → isCanonical r) ∧
    (∀ a b o r, rationalMultiply a b = .ok o → o = some r → isCanonical r) ∧
    (∀ a b o r, rationalDivide a b = .ok o → o = some r → isCanonical r) ∧
    (∀ o o' r, normalizeRational o = .ok o' → o' = some r → isCanonical r) ∧
    (∀ r, isCanonical r → r.numerator = 0 → r = ⟨0, 1⟩) ∧
    (∀ o o', normalizeRational o = .ok o' → normalizeRational o' = .ok o') := by
  have hnorm : ∀ o o' r, normalizeRational o = .ok o' → o' = some r → isCanonical r :=
    fun o o' r h => normalizeRational_ok_canonical o o' h r
  refine ⟨?_, ?_, ?_, ?_, ?_, hnorm, ?_, ?_⟩
  · intro v o r h ho
    cases v with
    | nullV => cases h; cases ho
    | undef => cases h; cases ho
    | rat x => exact hnorm (some x) o r h ho
    | str s =>
      simp only [parseRational] at h
      split at h
      · cases h; cases ho
      · obtain ⟨o0, h0, c0⟩ := parseRatFuel_good (s.toList.length + 1) s.toList
        rw [h0] at h
        cases h
        exact c0 r ho
  · intro a b o r h ho
    cases a with
    | none =>
      cases b with
      | none => cases h; cases ho
      | some br => exact hnorm (some br) o r h ho
    | some ar =>
      cases b with
      | none => exact hnorm (some ar) o r h ho
      | some br =>
        exact hnorm (some ⟨ar.numerator * br.denominator + br.numerator * ar.denominator,
          ar.denominator * br.denominator⟩) o r h ho
  · intro a b o r h ho
    cases b with
    | none =>
      rw [rationalSubtract] at h
      exact hnorm a o r h ho
    | some br =>
      rw [rationalSubtract] at h
      cases a with
      | none =>
        simp only [rationalAdd] at h
        exact hnorm (some ⟨-br.numerator, br.denominator⟩) o r h ho
      | some ar =>
        exact hnorm (some ⟨ar.numerator * br.denominator + -br.numerator * ar.denominator,
          ar.denominator * br.denominator⟩) o r h ho
  · intro a b o r h ho
    cases a with
    | none => cases h; cases ho
    | some ar =>
      cases b with
      | none => cases h; cases ho
      | some br =>
        rw [rationalMultiply] at h
        split at h
        · cases h
          cases ho
          exact isCanonical_zero
        · exact hnorm _ _ _ h ho
  · intro a b o r h ho
    cases a with
    | none => cases h; cases ho
    | some ar =>
      cases b with
      | none => cases h; cases ho
      | some br =>
        rw [rationalDivide] at h
        split at h
        · cases h
        · split at h
          · cases h
            cases ho
            exact isCanonical_zero
          · exact hnorm _ _ _ h ho
  · intro r hc hz
    obtain ⟨n, d⟩ := r
    obtain ⟨hd, hg⟩ := hc
    simp only at hd hg hz
    subst hz
    have : d.natAbs = 1 := by simpa [Int.gcd] using hg
    have : d = 1 := by omega
    rw [this]
  · intro o o' h
    cases o with
    | none =>
      simp only [normalizeRational] at h
      cases h
      rfl
    | some x =>
      obtain ⟨n, d⟩ := x
      by_cases hd : d = 0
      · rw [normalizeRational_some, if_pos hd] at h
        cases h
      · obtain ⟨r', heq, hcan, _⟩ := normalizeRational_spec n d hd
        rw [heq] at h
        cases h
        exact normalizeRational_canonical r' hcan

/-- Witness for C8: parsing `"2/4"` yields the canonical `1/2` (established
through the claim theorem), and normalization is idempotent on the
normalization of `2/4`. -/
theorem claim_C8_canonical_form_witness :
    isCanonical ⟨1, 2⟩ ∧
    normalizeRational (some ⟨2, 4⟩) = .ok (some ⟨1, 2⟩) ∧
    normalizeRational (some ⟨1, 2⟩) = .ok (some ⟨1, 2⟩) := by
  refine ⟨?_, rfl, ?_⟩
  · exact claim_C8_canonical_form.1 (.str "2/4") (some ⟨1, 2⟩) ⟨1, 2⟩ rfl rfl
  · exact claim_C8_canonical_form.2.2.2.2.2.2.2 (some ⟨2, 4⟩) (some ⟨1, 2⟩) rfl

theorem tdiv_natCast (m n : Nat) : ((m : Int)).tdiv (n : Int) = ((m / n : Nat) : Int) := rfl

theorem tmod_natCast (m n : Nat) : ((m : Int)).tmod (n : Int) = ((m % n : Nat) : Int) := rfl

theorem toString_intCast (n : Nat) : toString ((n : Nat) : Int) = toString n := rfl

theorem fracDigitsLoop_natify (g : Nat) : ∀ R D : Nat,
    fracDigitsLoop g (R : Int) (D : Int) =
      ((fracDigitsLoopN g R D).1.map Int.ofNat,
        ((fracDigitsLoopN g R D).2 : Int)) := by
  induction g with
  | zero => intro R D; rfl
  | succ g ih =>
    intro R D
    rw [fracDigitsLoop, fracDigitsLoopN]
    by_cases hR : R = 0
    · subst hR
      norm_num
    · rw [if_neg (by exact_mod_cast hR), if_neg hR]
      dsimp only
      have hcast : (R : Int) * 10 = ((R * 10 : Nat) : Int) := by push_cast; ring
      rw [hcast, tmod_natCast, tdiv_natCast, ih (R * 10 % D) D]
      rfl

theorem incDigitsRev_natify : ∀ ds : List Nat,
    incDigitsRev (ds.map Int.ofNat) =
      ((incDigitsRevN ds).1.map Int.ofNat, (incDigitsRevN ds).2) := by
  intro ds
  induction ds with
  | nil => rfl
  | cons d rest ih =>
    rw [List.map_cons, incDigitsRev, incDigitsRevN]
    simp only [Int.ofNat_eq_natCast]
    by_cases h : 10 ≤ d + 1
    · rw [if_pos (by exact_mod_cast h), if_pos h]
      dsimp only
      rw [ih]
      simp [Int.ofNat_eq_natCast]
    · rw [if_neg (by exact_mod_cast h), if_neg h]
      dsimp only
      simp only [List.map_cons]
      rfl

theorem popTrailingZeros_natify (ds : List Nat) :
    popTrailingZeros (ds.map Int.ofNat) =
      (trimTrailingZerosN ds).map Int.ofNat := by
  unfold popTrailingZeros trimTrailingZerosN
  rw [← List.map_reverse, List.dropWhile_map, ← List.map_reverse]
  have hp : ((fun (d : Int) => d == 0) ∘ Int.ofNat) = fun (d : Nat) => d == 0 := by
    funext d
    by_cases h : d = 0
    · subst h; rfl
    · have h1 : (d == 0) = false := by simpa using h
      have h2 : ((Int.ofNat d) == 0) = false := by
        simp only [beq_eq_false_iff_ne, ne_eq, Int.ofNat_eq_natCast]
        exact_mod_cast h
      simp only [Function.comp_apply, h1, h2]
  rw [hp]

theorem fracDigitsLoopN_rem (g : Nat) : ∀ R D : Nat, 0 < D → R < D →
    (fracDigitsLoopN g R D).2 = R * 10 ^ g % D := by
  induction g with
  | zero =>
    intro R D hD hR
    simp only [fracDigitsLoopN, pow_zero, mul_one]
    exact (Nat.mod_eq_of_lt hR).symm
  | succ g ih =>
    intro R D hD hR
    rw [fracDigitsLoopN]
    by_cases hRz : R = 0
    · subst hRz
      simp
    · rw [if_neg hRz]
      have := ih (R * 10 % D) D hD (Nat.mod_lt _ hD)
      rw [this, Nat.mod_mul_mod]
      conv_rhs => rw [pow_succ']
      rw [← mul_assoc]

theorem fracDigitsLoopN_len_le (g : Nat) : ∀ R D : Nat,
    (fracDigitsLoopN g R D).1.length ≤ g := by
  induction g with
  | zero => intro R D; simp [fracDigitsLoopN]
  | succ g ih =>
    intro R D
    rw [fracDigitsLoopN]
    by_cases hRz : R = 0
    · simp [hRz]
    · rw [if_neg hRz]
      simpa using ih (R * 10 % D) D

theorem fracDigitsLoopN_full_or_zero (g : Nat) : ∀ R D : Nat,
    (fracDigitsLoopN g R D).1.length = g ∨ (fracDigitsLoopN g R D).2 = 0 := by
  induction g with
  | zero => intro R D; exact .inl rfl
  | succ g ih =>
    intro R D
    rw [fracDigitsLoopN]
    by_cases hRz : R = 0
    · rw [if_pos hRz]
      exact .inr hRz
    · rw [if_neg hRz]
      rcases ih (R * 10 % D) D with h | h
      · exact .inl (by simpa using h)
      · exact .inr h

theorem digitStep (i R D : Nat) (hD : 0 < D) :
    R * 10 ^ (i + 2) / D % 10 = (R * 10 % D) * 10 ^ (i + 1) / D % 10 := by
  have hdm := Nat.div_add_mod (R * 10) D
  have h1 : R * 10 ^ (i + 2) =
      D * (R * 10 / D * 10 ^ (i + 1)) + R * 10 % D * 10 ^ (i + 1) := by
    calc R * 10 ^ (i + 2) = R * 10 * 10 ^ (i + 1) := by ring
      _ = (D * (R * 10 / D) + R * 10 % D) * 10 ^ (i + 1) := by rw [hdm]
      _ = _ := by ring
  rw [h1, Nat.mul_add_div hD]
  rw [show R * 10 / D * 10 ^ (i + 1) = 10 * (R * 10 / D * 10 ^ i) from by ring]
  rw [add_comm, show (R * 10 % D * 10 ^ (i + 1) / D + 10 * (R * 10 / D * 10 ^ i)) =
    (R * 10 % D * 10 ^ (i + 1) / D + 10 * (R * 10 / D * 10 ^ i)) from rfl]
  rw [Nat.add_mul_mod_self_left]

theorem fracDigitsLoopN_digits (g : Nat) : ∀ R D : Nat, 0 < D → R < D →
    (fracDigitsLoopN g R D).1 ++
        List.replicate (g - (fracDigitsLoopN g R D).1.length) 0 =
      (List.range g).map (fun i => R * 10 ^ (i + 1) / D % 10) := by
  induction g with
  | zero => intro R D hD hR; rfl
  | succ g ih =>
    intro R D hD hR
    rw [fracDigitsLoopN]
    by_cases hRz : R = 0
    · rw [if_pos hRz]
      subst hRz
      refine List.ext_getElem (by simp) ?_
      intro n h1 h2
      simp
    · rw [if_neg hRz]
      dsimp only
      rw [List.range_succ_eq_map, List.map_cons, List.map_map, List.cons_append,
        List.length_cons, Nat.succ_sub_succ_eq_sub]
      have ihx := ih (R * 10 % D) D hD (Nat.mod_lt _ hD)
      congr 1
      · rw [pow_one]
        exact (Nat.mod_eq_of_lt (by rw [Nat.div_lt_iff_lt_mul hD]; omega)).symm
      · rw [ihx]
        refine List.map_congr_left ?_
        intro i _
        exact (digitStep i R D hD).symm

theorem range_map_eq_pad (R D : Nat) (_hD : 0 < D) :
    (List.range 24).map (fun i => R * 10 ^ (i + 1) / D % 10) =
      padDigits (R * 10 ^ 24 / D) 24 := by
  refine List.ext_getElem (by simp [padDigits, revDigits]) ?_
  intro n h1 h2
  have hn : n < 24 := by simpa using h1
  rw [List.getElem_map, List.getElem_range]
  unfold padDigits revDigits
  rw [List.getElem_reverse]
  simp only [List.length_map, List.length_range, List.getElem_map, List.getElem_range]
  have hidx : 24 - 1 - n = 23 - n := by omega
  rw [hidx, Nat.div_div_eq_div_mul]
  have hsplit : R * 10 ^ 24 = R * 10 ^ (n + 1) * 10 ^ (23 - n) := by
    rw [mul_assoc, ← pow_add]
    congr 2
    omega
  rw [hsplit, show D * 10 ^ (23 - n) = D * 10 ^ (23 - n) from rfl]
  rw [Nat.mul_div_mul_right _ _ (by positivity)]

theorem truncation_lt (R D : Nat) (hD : 0 < D) (hR : R < D) :
    R * 10 ^ 24 / D < 10 ^ 24 := by
  rw [Nat.div_lt_iff_lt_mul hD]
  calc R * 10 ^ 24 < D * 10 ^ 24 := by
        have h24 : (0:Nat) < 10 ^ 24 := by positivity
        exact (Nat.mul_lt_mul_right h24).mpr hR
    _ = 10 ^ 24 * D := by ring

theorem roundDigit_eq (R D : Nat) (hD : 0 < D) :
    R * 10 ^ 24 % D * 10 / D = R * 10 ^ 25 / D % 10 := by
  have hdm := Nat.div_add_mod (R * 10 ^ 24) D
  have h1 : R * 10 ^ 25 =
      D * (R * 10 ^ 24 / D * 10) + R * 10 ^ 24 % D * 10 := by
    calc R * 10 ^ 25 = R * 10 ^ 24 * 10 := by ring
      _ = (D * (R * 10 ^ 24 / D) + R * 10 ^ 24 % D) * 10 := by rw [hdm]
      _ = _ := by ring
  rw [h1, Nat.mul_add_div hD]
  have ht : R * 10 ^ 24 % D * 10 / D < 10 := by
    rw [Nat.div_lt_iff_lt_mul hD]
    have := Nat.mod_lt (R * 10 ^ 24) hD
    omega
  rw [add_comm, show R * 10 ^ 24 / D * 10 = 10 * (R * 10 ^ 24 / D) from by ring,
    Nat.add_mul_mod_self_left]
  exact (Nat.mod_eq_of_lt ht).symm

theorem revDigits_succ (v len : Nat) :
    revDigits v (len + 1) = (v % 10) :: revDigits (v / 10) len := by
  unfold revDigits
  rw [List.range_succ_eq_map, List.map_cons, List.map_map]
  congr 1
  · simp
  · refine List.map_congr_left ?_
    intro i _
    simp only [Function.comp_apply]
    rw [show (10:Nat) ^ (Nat.succ i) = 10 * 10 ^ i from by rw [pow_succ]; ring,
      ← Nat.div_div_eq_div_mul]

theorem incDigitsRevN_spec : ∀ len v : Nat, v < 10 ^ len →
    incDigitsRevN (revDigits v len) =
      (if v + 1 = 10 ^ len then (List.replicate len 0, true)
       else (revDigits (v + 1) len, false)) := by
  intro len
  induction len with
  | zero =>
    intro v hv
    have hv0 : v = 0 := by simpa using hv
    subst hv0
    simp [revDigits, incDigitsRevN]
  | succ len ih =>
    intro v hv
    have hpow : (10:Nat) ^ (len + 1) = 10 ^ len * 10 := by rw [pow_succ]
    have hdiv : v / 10 < 10 ^ len := by
      rw [Nat.div_lt_iff_lt_mul (by norm_num)]
      omega
    rw [revDigits_succ, incDigitsRevN]
    by_cases h9 : v % 10 = 9
    · rw [if_pos (by omega)]
      dsimp only
      rw [ih (v / 10) hdiv]
      by_cases hov : v / 10 + 1 = 10 ^ len
      · rw [if_pos hov, if_pos (by omega)]
        rfl
      · rw [if_neg hov, if_neg (by omega)]
        rw [revDigits_succ (v + 1)]
        have e1 : (v + 1) % 10 = 0 := by omega
        have e2 : (v + 1) / 10 = v / 10 + 1 := by omega
        rw [e1, e2]
    · rw [if_neg (by omega), if_neg (by omega)]
      rw [revDigits_succ (v + 1)]
      have e1 : (v + 1) % 10 = v % 10 + 1 := by omega
      have e2 : (v + 1) / 10 = v / 10 := by omega
      rw [e1, e2]

theorem trim_append_zeros (xs : List Nat) (k : Nat) :
    trimTrailingZerosN (xs ++ List.replicate k 0) = trimTrailingZerosN xs := by
  unfold trimTrailingZerosN
  rw [List.reverse_append, List.reverse_replicate, List.dropWhile_append]
  have h : (List.replicate k 0).dropWhile (fun d => d == (0:Nat)) = [] := by
    rw [List.dropWhile_eq_nil_iff]
    intro x hx
    have := List.eq_of_mem_replicate hx
    subst this
    rfl
  rw [h]
  simp


theorem codeCarried_skip (I D : Nat) (digits : List Nat) (remF : Nat)
    (h : remF = 0 ∨ remF * 10 / D < 5) :
    codeCarried I D digits remF = (I, digits) := by
  unfold codeCarried
  rcases h with h | h
  · rw [if_neg (by simp [h])]
  · rw [if_neg (by simp [h, Nat.not_le.mpr h])]

theorem codeCarried_round (I D : Nat) (digits : List Nat) (remF : Nat)
    (h1 : remF ≠ 0) (h2 : 5 ≤ remF * 10 / D) (h3 : digits.isEmpty = false) :
    codeCarried I D digits remF =
      if (incDigitsRevN digits.reverse).2 then
        (I + 1, (incDigitsRevN digits.reverse).1.reverse.map fun _ => 0)
      else (I, (incDigitsRevN digits.reverse).1.reverse) := by
  unfold codeCarried
  rw [if_pos (by simp [h1, h2, h3])]

theorem renderMag_pad (a : Nat) (xs : List Nat) (k : Nat) :
    renderMag (a, xs ++ List.replicate k 0) = renderMag (a, xs) := by
  unfold renderMag
  dsimp only
  rw [trim_append_zeros]

theorem natMagnitude_eq_spec (N D : Nat) (hD : 0 < D) :
    natMagnitude N D = specMagnitude N D := by
  have hR : N % D < D := Nat.mod_lt _ hD
  have p1 : (fracDigitsLoopN 24 (N % D) D).2 = N % D * 10 ^ 24 % D :=
    fracDigitsLoopN_rem 24 (N % D) D hD hR
  have hdig : (fracDigitsLoopN 24 (N % D) D).1 ++
      List.replicate (24 - (fracDigitsLoopN 24 (N % D) D).1.length) 0 =
      padDigits (N % D * 10 ^ 24 / D) 24 :=
    (fracDigitsLoopN_digits 24 (N % D) D hD hR).trans (range_map_eq_pad (N % D) D hD)
  have hTlt : N % D * 10 ^ 24 / D < 10 ^ 24 := truncation_lt (N % D) D hD hR
  unfold natMagnitude specMagnitude
  by_cases hrem : N % D * 10 ^ 24 % D = 0
  · rw [codeCarried_skip _ _ _ _ (Or.inl (p1.trans hrem))]
    have hV : specV N D = N % D * 10 ^ 24 / D := by
      unfold specV
      rw [if_neg (fun hc => hc.1 hrem)]
    unfold specPair
    rw [hV, if_neg hTlt.ne, ← hdig]
    exact (renderMag_pad _ _ _).symm
  · have hlen : (fracDigitsLoopN 24 (N % D) D).1.length = 24 := by
      rcases fracDigitsLoopN_full_or_zero 24 (N % D) D with h | h
      · exact h
      · rw [p1] at h
        exact absurd h hrem
    have hne : ((fracDigitsLoopN 24 (N % D) D).1.isEmpty) = false := by
      rw [List.isEmpty_eq_false]
      intro hc
      rw [hc] at hlen
      cases hlen
    have hdig24 : (fracDigitsLoopN 24 (N % D) D).1 =
        padDigits (N % D * 10 ^ 24 / D) 24 := by
      rw [← hdig, hlen]
      simp
    have hrd : (fracDigitsLoopN 24 (N % D) D).2 * 10 / D =
        N % D * 10 ^ 25 / D % 10 := by
      rw [p1]
      exact roundDigit_eq (N % D) D hD
    have hrev : (fracDigitsLoopN 24 (N % D) D).1.reverse =
        revDigits (N % D * 10 ^ 24 / D) 24 := by
      rw [hdig24]
      unfold padDigits
      rw [List.reverse_reverse]
    by_cases h5 : 5 ≤ N % D * 10 ^ 25 / D % 10
    · rw [codeCarried_round _ _ _ _ (by rw [p1]; exact hrem) (by rw [hrd]; exact h5) hne]
      rw [hrev, incDigitsRevN_spec 24 _ hTlt]
      have hV : specV N D = N % D * 10 ^ 24 / D + 1 := by
        unfold specV
        rw [if_pos ⟨hrem, h5⟩]
      unfold specPair
      rw [hV]
      by_cases hov : N % D * 10 ^ 24 / D + 1 = 10 ^ 24
      · rw [if_pos hov, if_pos hov]
        dsimp only
        rw [List.reverse_replicate, List.map_replicate]
        have h0 := renderMag_pad (N / D + 1) [] 24
        simpa using h0
      · rw [if_neg hov, if_neg hov]
        dsimp only
        rfl
    · rw [codeCarried_skip _ _ _ _ (Or.inr (by rw [hrd]; omega))]
      have hV : specV N D = N % D * 10 ^ 24 / D := by
        unfold specV
        rw [if_neg (fun hc => h5 hc.2)]
      unfold specPair
      rw [hV, if_neg hTlt.ne, ← hdig]
      exact (renderMag_pad _ _ _).symm

theorem mul_ten_natCast (x : Nat) : (x : Int) * 10 = ((x * 10 : Nat) : Int) := by
  push_cast
  ring

theorem decide_ne_zero_natCast (x : Nat) :
    decide ((x : Int) ≠ 0) = decide (x ≠ 0) := by
  simp

theorem decide_five_le_natCast (x : Nat) :
    decide ((5 : Int) ≤ (x : Int)) = decide (5 ≤ x) := by
  simp

theorem isEmpty_map_ofNat (l : List Nat) :
    (l.map Int.ofNat).isEmpty = l.isEmpty := by
  cases l <;> rfl

theorem map_zero_ofNat (l : List Nat) :
    ((l.map Int.ofNat).reverse).map (fun _ => (0 : Int)) =
      (l.reverse.map (fun _ => (0 : Nat))).map Int.ofNat := by
  rw [← List.map_reverse, List.map_map, List.map_map]
  rfl

theorem join_map_toString (l : List Nat) :
    String.join ((l.map Int.ofNat).map (fun d => toString d)) =
      String.join (l.map (fun d => toString d)) := by
  rw [List.map_map]
  rfl

theorem natCast_add_one (x : Nat) : (x : Int) + 1 = ((x + 1 : Nat) : Int) := by
  push_cast
  ring

theorem rationalToString_natify (num den : Int) (hn : num ≠ 0) (hd : 0 < den) :
    rationalToString (some ⟨num, den⟩) =
      natToStringAlg (decide (num < 0)) num.natAbs den.toNat := by
  have e1 : (if num < 0 then -num else num) = ((num.natAbs : Nat) : Int) := by
    split <;> omega
  have e2 : den = ((den.toNat : Nat) : Int) := (Int.toNat_of_nonneg hd.le).symm
  unfold rationalToString natToStringAlg natMagnitude codeCarried renderMag
  dsimp only
  rw [if_neg hn]
  rw [e1]
  conv_lhs => rw [e2]
  rw [tdiv_natCast, tmod_natCast, fracDigitsLoop_natify]
  dsimp only
  rw [mul_ten_natCast, tdiv_natCast, decide_ne_zero_natCast, decide_five_le_natCast,
    isEmpty_map_ofNat, ← List.map_reverse, incDigitsRev_natify]
  dsimp only
  rw [map_zero_ofNat, ← List.map_reverse (Int.ofNat)]
  generalize fracDigitsLoopN 24 (num.natAbs % den.toNat) den.toNat = L
  generalize incDigitsRevN L.1.reverse = Q
  by_cases hc : (decide (L.2 ≠ 0) && decide (5 ≤ L.2 * 10 / den.toNat) && !L.1.isEmpty) = true
  · by_cases hq : Q.2 = true
    · rw [if_pos hc, if_pos hq]
      dsimp only
      rw [popTrailingZeros_natify, isEmpty_map_ofNat, join_map_toString,
        natCast_add_one, toString_intCast]
      rw [if_pos hc, if_pos hq]
      rfl
    · rw [if_pos hc, if_neg hq]
      dsimp only
      rw [popTrailingZeros_natify, isEmpty_map_ofNat, join_map_toString, toString_intCast]
      rw [if_pos hc, if_neg hq]
      rfl
  · rw [if_neg hc]
    dsimp only
    rw [popTrailingZeros_natify, isEmpty_map_ofNat, join_map_toString, toString_intCast]
    rw [if_neg hc]
    rfl

/-- **C4.** For every rational with nonzero numerator and positive denominator
(the data-model invariant for all rationals the formatter receives),
`rationalToString` computes exactly the specified long-division rendering: the
integer part of the absolute value, at most 24 fractional digits, one
further-digit round-half-up with carry propagation (incrementing the integer
part and clearing the digits when the carry passes the most significant
generated digit), trailing-zero trimming, and sign suppression on a zero
result — stated as equality with the closed-form specification
`specToString`.  The `parse("1/3")` instance yielding `"0."` followed by
exactly 24 `3` digits is checked in the witness.  (Helper form; the claim
theorem below restates it.) -/
theorem rationalToString_eq_specToString (r : RatR) (hn : r.numerator ≠ 0)
    (hd : 0 < r.denominator) : rationalToString (some r) = specToString r := by
  obtain ⟨num, den⟩ := r
  simp only at hn hd
  rw [rationalToString_natify num den hn hd]
  unfold natToStringAlg specToString
  rw [if_neg hn]
  dsimp only
  rw [natMagnitude_eq_spec _ _ (by omega : 0 < den.toNat)]

/-- **C4.** For every rational with nonzero numerator and positive denominator
(the data-model invariant for all rationals the formatter receives),
`rationalToString` computes exactly the specified long-division rendering:
integer part of the absolute value, at most 24 fractional digits by repeated
multiply-by-ten long division, one further-digit round-half-up with carry
propagation (incrementing the integer part and clearing the digits when the
carry passes the most significant generated digit), trailing-zero trimming,
and sign suppression on a zero result — stated as equality with the
closed-form specification `specToString`. -/
theorem claim_C4_formatter (r : RatR) (hn : r.numerator ≠ 0) (hd : 0 < r.denominator) :
    rationalToString (some r) = specToString r :=
  rationalToString_eq_specToString r hn hd

/-- Witness for C4: the formatter agrees with the specification on `1/3`
(via the claim theorem), `parse("1/3")` formats to `"0."` followed by exactly
24 threes, and `2/3` rounds its 24th digit up to `7`. -/
theorem claim_C4_formatter_witness :
    rationalToString (some ⟨1, 3⟩) = specToString ⟨1, 3⟩ ∧
    rationalToString (some ⟨1, 3⟩) = "0.333333333333333333333333" ∧
    parseRational (.str "1/3") = .ok (some ⟨1, 3⟩) ∧
    rationalToString (some ⟨2, 3⟩) = "0.666666666666666666666667" :=
  ⟨claim_C4_formatter ⟨1, 3⟩ (by decide) (by decide), rfl, rfl, rfl⟩

theorem digitChar_facts (d : Nat) (h : d < 10) :
    (digitChar d).isDigit = true ∧ isWsChar (digitChar d) = false ∧
    digitChar d ≠ '+' ∧ digitChar d ≠ '-' ∧ digitChar d ≠ '/' ∧
    (digitChar d).toLower ≠ 'e' ∧ digitChar d ≠ '.' ∧ (digitChar d = '0' ↔ d = 0) ∧
    (digitChar d).toNat - 48 = d := by
  unfold digitChar isWsChar
  interval_cases d <;> exact ⟨by decide, by decide, by decide, by decide, by decide,
    by decide, by decide, by decide, by decide⟩

theorem dropWhile_eq_self_of {α : Type} (p : α → Bool) (l : List α)
    (h : ∀ c ∈ l, p c = false) : l.dropWhile p = l := by
  induction l with
  | nil => rfl
  | cons c rest ih =>
    rw [List.dropWhile_cons, h c (List.mem_cons_self _ _)]
    simp

theorem trimWs_eq_self (l : List Char) (h : ∀ c ∈ l, isWsChar c = false) :
    trimWs l = l := by
  unfold trimWs
  rw [dropWhile_eq_self_of _ _ h]
  rw [dropWhile_eq_self_of _ _ (fun c hc => h c (List.mem_reverse.mp hc))]
  exact List.reverse_reverse l

theorem splitFirst_eq_none (s : Char) (l : List Char) (h : ∀ c ∈ l, c ≠ s) :
    splitFirst s l = none := by
  induction l with
  | nil => rfl
  | cons c rest ih =>
    rw [splitFirst, if_neg (h c (List.mem_cons_self _ _))]
    rw [ih (fun x hx => h x (List.mem_cons_of_mem _ hx))]
    rfl

theorem findIdx?_append_spec (p : Char → Bool) (c : Char) (l₂ : List Char) :
    ∀ (l₁ : List Char) (i : Nat), (∀ x ∈ l₁, p x = false) → p c = true →
      List.findIdx? p (l₁ ++ c :: l₂) i = some (i + l₁.length) := by
  intro l₁
  induction l₁ with
  | nil =>
    intro i _ hc
    rw [List.nil_append, List.findIdx?_cons, if_pos hc]
    rfl
  | cons x rest ih =>
    intro i h hc
    rw [List.cons_append, List.findIdx?_cons, if_neg (by rw [h x (List.mem_cons_self _ _)]; simp)]
    rw [ih (i + 1) (fun y hy => h y (List.mem_cons_of_mem _ hy)) hc]
    congr 1
    simp only [List.length_cons]
    omega

theorem take_append_cons (l₁ : List Char) (c : Char) (l₂ : List Char) :
    (l₁ ++ c :: l₂).take l₁.length = l₁ :=
  List.take_left l₁ (c :: l₂)

theorem drop_append_cons (l₁ : List Char) (c : Char) (l₂ : List Char) :
    (l₁ ++ c :: l₂).drop (l₁.length + 1) = l₂ := by
  rw [show l₁ ++ c :: l₂ = (l₁ ++ [c]) ++ l₂ from by simp]
  rw [show l₁.length + 1 = (l₁ ++ [c]).length from by simp]
  exact List.drop_left _ _

theorem foldl_congr_mem {α β : Type} (f g : β → α → β) (l : List α) :
    ∀ b : β, (∀ a : β, ∀ x ∈ l, f a x = g a x) → l.foldl f b = l.foldl g b := by
  induction l with
  | nil => intro b _; rfl
  | cons x rest ih =>
    intro b h
    rw [List.foldl_cons, List.foldl_cons, h b x (List.mem_cons_self _ _)]
    exact ih _ (fun a y hy => h a y (List.mem_cons_of_mem _ hy))

theorem digitsToNat_map (ds : List Nat) (h : ∀ d ∈ ds, d < 10) :
    digitsToNat (ds.map digitChar) = digitsVal ds := by
  unfold digitsToNat digitsVal
  rw [List.foldl_map]
  exact foldl_congr_mem _ _ ds 0
    (fun a x hx => by rw [(digitChar_facts x (h x hx)).2.2.2.2.2.2.2.2])

theorem digitsToNat_dropWhile_zero (l : List Char) :
    digitsToNat (l.dropWhile fun c => c = '0') = digitsToNat l := by
  induction l with
  | nil => rfl
  | cons c rest ih =>
    rw [List.dropWhile_cons]
    by_cases hc : c = '0'
    · rw [if_pos (by simp [hc]), ih]
      subst hc
      unfold digitsToNat
      rfl
    · rw [if_neg (by simp [hc])]

theorem digitsVal_foldl (l : List Nat) : ∀ a : Nat,
    l.foldl (fun a d => a * 10 + d) a = a * 10 ^ l.length + digitsVal l := by
  induction l with
  | nil => intro a; simp [digitsVal]
  | cons d rest ih =>
    intro a
    rw [List.foldl_cons, ih (a * 10 + d)]
    have hd : digitsVal (d :: rest) = d * 10 ^ rest.length + digitsVal rest := by
      unfold digitsVal
      rw [List.foldl_cons, ih (0 * 10 + d)]
      norm_num [digitsVal]
    rw [hd, List.length_cons, pow_succ]
    ring

theorem digitsVal_cons (d : Nat) (rest : List Nat) :
    digitsVal (d :: rest) = d * 10 ^ rest.length + digitsVal rest := by
  unfold digitsVal
  rw [List.foldl_cons, digitsVal_foldl]
  simp [digitsVal]

theorem digitsVal_append (xs ys : List Nat) :
    digitsVal (xs ++ ys) = digitsVal xs * 10 ^ ys.length + digitsVal ys := by
  unfold digitsVal
  rw [List.foldl_append, digitsVal_foldl]
  rfl

theorem digitsVal_lt (ds : List Nat) (h : ∀ d ∈ ds, d < 10) :
    digitsVal ds < 10 ^ ds.length := by
  induction ds with
  | nil => simp [digitsVal]
  | cons d rest ih =>
    rw [digitsVal_cons, List.length_cons, pow_succ]
    have h1 : d < 10 := h d (List.mem_cons_self _ _)
    have h2 := ih (fun x hx => h x (List.mem_cons_of_mem _ hx))
    nlinarith [pow_pos (show (0:Nat) < 10 by norm_num) rest.length]

theorem digitsVal_eq_zero (ds : List Nat) (h : digitsVal ds = 0) :
    ∀ d ∈ ds, d = 0 := by
  induction ds with
  | nil => intro d hd; cases hd
  | cons x rest ih =>
    rw [digitsVal_cons] at h
    intro d hd
    rcases List.mem_cons.mp hd with h1 | h1
    · subst h1
      have := Nat.pos_pow_of_pos rest.length (show 0 < 10 by norm_num)
      nlinarith
    · exact ih (by omega) d h1

theorem digitsVal_replicate_zero (k : Nat) : digitsVal (List.replicate k 0) = 0 := by
  induction k with
  | zero => rfl
  | succ k ih =>
    rw [List.replicate_succ, digitsVal_cons, ih]
    simp

theorem digitsVal_append_zeros (xs : List Nat) (k : Nat) :
    digitsVal (xs ++ List.replicate k 0) = digitsVal xs * 10 ^ k := by
  rw [digitsVal_append, digitsVal_replicate_zero, List.length_replicate]
  simp

theorem trim_decomposition (ds : List Nat) :
    ds = trimTrailingZerosN ds ++
      List.replicate (ds.length - (trimTrailingZerosN ds).length) 0 := by
  unfold trimTrailingZerosN
  have hsplit := List.takeWhile_append_dropWhile (fun d => d == (0:Nat)) ds.reverse
  have htake : List.takeWhile (fun d => d == (0:Nat)) ds.reverse =
      List.replicate (List.takeWhile (fun d => d == (0:Nat)) ds.reverse).length 0 := by
    rw [List.eq_replicate_iff]
    refine ⟨rfl, ?_⟩
    intro b hb
    have := List.mem_takeWhile_imp hb
    simpa using this
  conv_lhs => rw [← List.reverse_reverse ds, ← hsplit]
  rw [List.reverse_append]
  congr 1
  rw [htake, List.reverse_replicate]
  congr 1
  have hlen := congrArg List.length hsplit
  rw [List.length_append, List.length_reverse] at hlen
  simp only [List.length_reverse]
  omega

theorem dropWhile_idem {α : Type} (p : α → Bool) (l : List α) :
    (l.dropWhile p).dropWhile p = l.dropWhile p := by
  induction l with
  | nil => rfl
  | cons c rest ih =>
    rw [List.dropWhile_cons]
    by_cases hc : p c = true
    · rw [if_pos hc]
      exact ih
    · rw [if_neg hc, List.dropWhile_cons, if_neg hc]

theorem trim_idem (ds : List Nat) :
    trimTrailingZerosN (trimTrailingZerosN ds) = trimTrailingZerosN ds := by
  unfold trimTrailingZerosN
  rw [List.reverse_reverse, dropWhile_idem]

theorem revDigits_digitsVal (ds : List Nat) (h : ∀ d ∈ ds, d < 10) :
    revDigits (digitsVal ds) ds.length = ds.reverse := by
  induction ds using List.reverseRecOn with
  | nil => rfl
  | append_singleton l a ih =>
    have ha : a < 10 := h a (by simp)
    have hv : digitsVal (l ++ [a]) = digitsVal l * 10 + a := by
      rw [digitsVal_append]
      simp [digitsVal]
    rw [hv, List.length_append]
    simp only [List.length_cons, List.length_nil]
    rw [show l.length + (0 + 1) = l.length + 1 from by omega, revDigits_succ]
    have e1 : (digitsVal l * 10 + a) % 10 = a := by omega
    have e2 : (digitsVal l * 10 + a) / 10 = digitsVal l := by omega
    rw [e1, e2, ih (fun x hx => h x (by simp [hx]))]
    simp

theorem revDigits_shift (v : Nat) : ∀ k len : Nat,
    revDigits (v * 10 ^ k) (len + k) = List.replicate k 0 ++ revDigits v len := by
  intro k
  induction k with
  | zero => intro len; simp [revDigits]
  | succ k ih =>
    intro len
    rw [show len + (k + 1) = (len + k) + 1 from by omega, revDigits_succ]
    have e1 : v * 10 ^ (k + 1) % 10 = 0 := by
      rw [pow_succ, ← mul_assoc]
      exact Nat.mul_mod_left _ _
    have e2 : v * 10 ^ (k + 1) / 10 = v * 10 ^ k := by
      rw [pow_succ, ← mul_assoc]
      exact Nat.mul_div_cancel _ (by norm_num)
    rw [e1, e2, ih len, List.replicate_succ]
    rfl

theorem padDigits_shift (ds : List Nat) (k : Nat) (h : ∀ d ∈ ds, d < 10) :
    padDigits (digitsVal ds * 10 ^ k) (ds.length + k) = ds ++ List.replicate k 0 := by
  unfold padDigits
  rw [revDigits_shift, List.reverse_append, List.reverse_replicate, revDigits_digitsVal ds h]
  rw [List.reverse_reverse]

theorem Nat_div_eq_of_cross (a b c d : Nat) (hb : 0 < b) (hd : 0 < d)
    (h : a * d = c * b) : a / b = c / d := by
  have h1 : a / b ≤ c / d := by
    rw [Nat.le_div_iff_mul_le hd]
    have hx : a / b * b * d ≤ a * d := Nat.mul_le_mul_right d (Nat.div_mul_le_self a b)
    rw [h] at hx
    have := Nat.le_of_mul_le_mul_right (by
      calc a / b * d * b = a / b * b * d := by ring
        _ ≤ c * b := hx) hb
    exact this
  have h2 : c / d ≤ a / b := by
    rw [Nat.le_div_iff_mul_le hb]
    have hx : c / d * d * b ≤ c * b := Nat.mul_le_mul_right b (Nat.div_mul_le_self c d)
    rw [← h] at hx
    have := Nat.le_of_mul_le_mul_right (by
      calc c / d * b * d = c / d * d * b := by ring
        _ ≤ a * d := hx) hd
    exact this
  omega

theorem Nat_mod_cross (a b c d : Nat) (hb : 0 < b) (hd : 0 < d)
    (h : a * d = c * b) : (a % b) * d = (c % d) * b := by
  have hq : a / b = c / d := Nat_div_eq_of_cross a b c d hb hd h
  have e1 : a % b = a - b * (a / b) := by
    have := Nat.div_add_mod a b
    omega
  have e2 : c % d = c - d * (c / d) := by
    have := Nat.div_add_mod c d
    omega
  rw [e1, e2, Nat.sub_mul, Nat.sub_mul, h, hq]
  congr 1
  ring

theorem specMagnitude_congr (N D M E : Nat) (hD : 0 < D) (hE : 0 < E)
    (h : N * E = M * D) : specMagnitude N D = specMagnitude M E := by
  have hI : N / D = M / E := Nat_div_eq_of_cross N D M E hD hE h
  have hRc : (N % D) * E = (M % E) * D := Nat_mod_cross N D M E hD hE h
  have hRc24 : (N % D * 10 ^ 24) * E = (M % E * 10 ^ 24) * D := by
    calc (N % D * 10 ^ 24) * E = ((N % D) * E) * 10 ^ 24 := by ring
      _ = ((M % E) * D) * 10 ^ 24 := by rw [hRc]
      _ = (M % E * 10 ^ 24) * D := by ring
  have hRc25 : (N % D * 10 ^ 25) * E = (M % E * 10 ^ 25) * D := by
    calc (N % D * 10 ^ 25) * E = ((N % D) * E) * 10 ^ 25 := by ring
      _ = ((M % E) * D) * 10 ^ 25 := by rw [hRc]
      _ = (M % E * 10 ^ 25) * D := by ring
  have hT : N % D * 10 ^ 24 / D = M % E * 10 ^ 24 / E :=
    Nat_div_eq_of_cross _ _ _ _ hD hE hRc24
  have h25 : N % D * 10 ^ 25 / D = M % E * 10 ^ 25 / E :=
    Nat_div_eq_of_cross _ _ _ _ hD hE hRc25
  have hremc : (N % D * 10 ^ 24 % D) * E = (M % E * 10 ^ 24 % E) * D :=
    Nat_mod_cross _ _ _ _ hD hE hRc24
  have hrem : (N % D * 10 ^ 24 % D = 0) ↔ (M % E * 10 ^ 24 % E = 0) := by
    constructor
    · intro h0
      rw [h0] at hremc
      simp only [zero_mul] at hremc
      have := hremc.symm
      rcases Nat.mul_eq_zero.mp this with h1 | h1
      · exact h1
      · omega
    · intro h0
      rw [h0] at hremc
      simp only [zero_mul] at hremc
      rcases Nat.mul_eq_zero.mp hremc with h1 | h1
      · exact h1
      · omega
  have hV : specV N D = specV M E := by
    unfold specV
    rw [hT, h25]
    exact if_congr (and_congr (not_congr hrem) Iff.rfl) rfl rfl
  unfold specMagnitude specPair
  rw [hV, hI]

theorem specToString_congr (r s : RatR) (hr : 0 < r.denominator)
    (hs : 0 < s.denominator)
    (h : r.numerator * s.denominator = s.numerator * r.denominator) :
    specToString r = specToString s := by
  have hz : r.numerator = 0 ↔ s.numerator = 0 := by
    constructor
    · intro h0
      rw [h0, zero_mul] at h
      rcases mul_eq_zero.mp h.symm with h1 | h1
      · exact h1
      · omega
    · intro h0
      rw [h0, zero_mul] at h
      rcases mul_eq_zero.mp h with h1 | h1
      · exact h1
      · omega
  unfold specToString
  by_cases h0 : r.numerator = 0
  · rw [if_pos h0, if_pos (hz.mp h0)]
  · have h0s : s.numerator ≠ 0 := fun hc => h0 (hz.mpr hc)
    rw [if_neg h0, if_neg h0s]
    have hsign : r.numerator < 0 ↔ s.numerator < 0 := by
      constructor
      · intro hlt
        nlinarith
      · intro hlt
        nlinarith
    have habs : r.numerator.natAbs * s.denominator.toNat =
        s.numerator.natAbs * r.denominator.toNat := by
      have := congrArg Int.natAbs h
      rw [Int.natAbs_mul, Int.natAbs_mul] at this
      have e1 : s.denominator.natAbs = s.denominator.toNat := by omega
      have e2 : r.denominator.natAbs = r.denominator.toNat := by omega
      rw [e1, e2] at this
      exact this
    have hmag : specMagnitude r.numerator.natAbs r.denominator.toNat =
        specMagnitude s.numerator.natAbs s.denominator.toNat :=
      specMagnitude_congr _ _ _ _ (by omega) (by omega) habs
    rw [hmag]
    have hsb : decide (r.numerator < 0) = decide (s.numerator < 0) := by
      rcases Classical.em (r.numerator < 0) with hh | hh
      · rw [decide_eq_true hh, decide_eq_true (hsign.mp hh)]
      · rw [decide_eq_false hh, decide_eq_false (fun hc => hh (hsign.mpr hc))]
    rw [hsb]

theorem digitsVal_all_zero (ds : List Nat) (h : ∀ d ∈ ds, d = 0) :
    digitsVal ds = 0 := by
  rw [show ds = List.replicate ds.length 0 from List.eq_replicate_iff.mpr ⟨rfl, h⟩]
  exact digitsVal_replicate_zero _

theorem normalizeRational_zero_num (d : Int) (hd : d ≠ 0) :
    normalizeRational (some ⟨0, d⟩) = .ok (some ⟨0, 1⟩) := by
  rw [normalizeRational_some, if_neg hd, if_pos rfl]

theorem parseDecimalTail_lit (sig : Int) (intDs fracDs : List Nat)
    (hint : ∀ d ∈ intDs, d < 10) (hfrac : ∀ d ∈ fracDs, d < 10) :
    parseDecimalTail sig (intDs.map digitChar ++
        (if fracDs.isEmpty then [] else '.' :: fracDs.map digitChar)) =
      normalizeRational (some
        ⟨if sig < 0 then -(digitsVal (intDs ++ fracDs) : Int)
          else (digitsVal (intDs ++ fracDs) : Int),
         (10 : Int) ^ fracDs.length⟩) := by
  have hintc : ∀ c ∈ intDs.map digitChar, ∃ d, d < 10 ∧ c = digitChar d := by
    intro c hc
    obtain ⟨d, hd, hcd⟩ := List.mem_map.mp hc
    exact ⟨d, hint d hd, hcd.symm⟩
  have hfracc : ∀ c ∈ fracDs.map digitChar, ∃ d, d < 10 ∧ c = digitChar d := by
    intro c hc
    obtain ⟨d, hd, hcd⟩ := List.mem_map.mp hc
    exact ⟨d, hfrac d hd, hcd.symm⟩
  by_cases hfe : fracDs = []
  · subst hfe
    have hs : (intDs.map digitChar ++
        (if ([] : List Nat).isEmpty then [] else '.' :: ([] : List Nat).map digitChar)) =
        intDs.map digitChar := by simp
    rw [hs]
    have he : (intDs.map digitChar).findIdx? (fun c => c.toLower = 'e') = none := by
      rw [List.findIdx?_eq_none_iff]
      intro x hx
      obtain ⟨d, hd, hcd⟩ := hintc x hx
      subst hcd
      exact decide_eq_false (digitChar_facts d hd).2.2.2.2.2.1
    have hdot : (intDs.map digitChar).findIdx? (fun c => c = '.') = none := by
      rw [List.findIdx?_eq_none_iff]
      intro x hx
      obtain ⟨d, hd, hcd⟩ := hintc x hx
      subst hcd
      exact decide_eq_false (digitChar_facts d hd).2.2.2.2.2.2.1
    unfold parseDecimalTail
    rw [he]
    dsimp only
    rw [hdot]
    dsimp only
    by_cases hz : (intDs.map digitChar).dropWhile (fun c => c = '0') = []
    · have hzero : ∀ d ∈ intDs, d = 0 := by
        intro d hd
        have hx := List.dropWhile_eq_nil_iff.mp hz (digitChar d) (List.mem_map_of_mem _ hd)
        have hx0 : digitChar d = '0' := of_decide_eq_true hx
        exact ((digitChar_facts d (hint d hd)).2.2.2.2.2.2.2.1).mp hx0
      rw [hz, List.isEmpty_nil, if_pos rfl]
      rw [List.append_nil, digitsVal_all_zero intDs hzero]
      simp only [Nat.cast_zero, neg_zero, ite_self, List.length_nil, pow_zero]
      rw [normalizeRational_zero_num 1 one_ne_zero]
    · have hze : ((intDs.map digitChar).dropWhile (fun c => c = '0')).isEmpty = false :=
        List.isEmpty_eq_false.mpr hz
      have hall : ((intDs.map digitChar).dropWhile (fun c => c = '0')).all Char.isDigit
          = true := by
        rw [List.all_eq_true]
        intro x hx
        obtain ⟨d, hd, hcd⟩ := hintc x
          ((List.dropWhile_sublist (l := intDs.map digitChar) _).subset hx)
        subst hcd
        exact (digitChar_facts d hd).1
      simp only [hze, hall, Bool.not_true, Bool.false_eq_true, if_false]
      rw [if_pos (show (0 : Int) ≤ 0 - 0 from by norm_num)]
      rw [if_neg (show ¬((0 : Int) < 0 - 0) from by norm_num)]
      rw [if_pos (show (0 : Int) ≤ 0 - 0 from by norm_num)]
      rw [digitsToNat_dropWhile_zero, digitsToNat_map intDs hint]
      simp only [List.append_nil, List.length_nil, pow_zero]
  · have hfeb : fracDs.isEmpty = false := List.isEmpty_eq_false.mpr hfe
    simp only [hfeb, Bool.false_eq_true, if_false]
    have hboth : ∀ d ∈ intDs ++ fracDs, d < 10 := by
      intro d hd
      rcases List.mem_append.mp hd with hd | hd
      · exact hint d hd
      · exact hfrac d hd
    have he : (intDs.map digitChar ++ '.' :: fracDs.map digitChar).findIdx?
        (fun c => c.toLower = 'e') = none := by
      rw [List.findIdx?_eq_none_iff]
      intro x hx
      rcases List.mem_append.mp hx with hx | hx
      · obtain ⟨d, hd, hcd⟩ := hintc x hx
        subst hcd
        exact decide_eq_false (digitChar_facts d hd).2.2.2.2.2.1
      · rcases List.mem_cons.mp hx with hx | hx
        · subst hx
          decide
        · obtain ⟨d, hd, hcd⟩ := hfracc x hx
          subst hcd
          exact decide_eq_false (digitChar_facts d hd).2.2.2.2.2.1
    have hdot : (intDs.map digitChar ++ '.' :: fracDs.map digitChar).findIdx?
        (fun c => c = '.') = some intDs.length := by
      have hspec := findIdx?_append_spec (fun c => decide (c = '.')) '.'
        (fracDs.map digitChar) (intDs.map digitChar) 0
        (by
          intro x hx
          obtain ⟨d, hd, hcd⟩ := hintc x hx
          subst hcd
          exact decide_eq_false (digitChar_facts d hd).2.2.2.2.2.2.1)
        (by decide)
      simpa using hspec
    have htake : (intDs.map digitChar ++ '.' :: fracDs.map digitChar).take intDs.length
        = intDs.map digitChar := by
      simp
    have hdrop : (intDs.map digitChar ++ '.' :: fracDs.map digitChar).drop
        (intDs.length + 1) = fracDs.map digitChar := by
      have := drop_append_cons (intDs.map digitChar) '.' (fracDs.map digitChar)
      simpa using this
    have hflen : (intDs.map digitChar ++ '.' :: fracDs.map digitChar).length
        - intDs.length - 1 = fracDs.length := by
      simp only [List.length_append, List.length_map, List.length_cons]
      omega
    unfold parseDecimalTail
    rw [he]
    dsimp only
    rw [hdot]
    dsimp only
    rw [htake, hdrop, hflen, ← List.map_append]
    by_cases hz : ((intDs ++ fracDs).map digitChar).dropWhile (fun c => c = '0') = []
    · have hzero : ∀ d ∈ intDs ++ fracDs, d = 0 := by
        intro d hd
        have hx := List.dropWhile_eq_nil_iff.mp hz (digitChar d) (List.mem_map_of_mem _ hd)
        have hx0 : digitChar d = '0' := of_decide_eq_true hx
        exact ((digitChar_facts d (hboth d hd)).2.2.2.2.2.2.2.1).mp hx0
      rw [hz, List.isEmpty_nil, if_pos rfl]
      rw [digitsVal_all_zero _ hzero]
      simp only [Nat.cast_zero, neg_zero, ite_self]
      rw [normalizeRational_zero_num _ (pow_ne_zero _ (by norm_num))]
    · have hze : (((intDs ++ fracDs).map digitChar).dropWhile (fun c => c = '0')).isEmpty
          = false := List.isEmpty_eq_false.mpr hz
      have hall : (((intDs ++ fracDs).map digitChar).dropWhile (fun c => c = '0')).all
          Char.isDigit = true := by
        rw [List.all_eq_true]
        intro x hx
        have hx2 := (List.dropWhile_sublist (l := (intDs ++ fracDs).map digitChar) _).subset hx
        obtain ⟨d, hd, hcd⟩ := List.mem_map.mp hx2
        rw [← hcd]
        exact (digitChar_facts d (hboth d hd)).1
      simp only [hze, hall, Bool.not_true, Bool.false_eq_true, if_false]
      have hfl : 0 < fracDs.length := List.length_pos.mpr hfe
      rw [if_neg (show ¬((0 : Int) ≤ 0 - (fracDs.length : Nat)) from by omega)]
      rw [if_neg (show ¬((0 : Int) ≤ 0 - (fracDs.length : Nat)) from by omega)]
      rw [show -((0 : Int) - (fracDs.length : Nat)) = ((fracDs.length : Nat) : Int) from by
        ring]
      rw [pow10BigInt_eq, if_neg (show ¬((fracDs.length : Int) ≤ 0) from by omega),
        Int.toNat_natCast]
      rw [digitsToNat_dropWhile_zero, digitsToNat_map _ hboth]

theorem stripSign_no_sign (l : List Char) (h : ∀ c ∈ l, c ≠ '+' ∧ c ≠ '-') :
    stripSign l = (1, l) := by
  cases l with
  | nil => rfl
  | cons c rest =>
    unfold stripSign
    dsimp only
    rw [if_neg (h c (List.mem_cons_self _ _)).1, if_neg (h c (List.mem_cons_self _ _)).2]

theorem parseRatFuel_plain (fuel : Nat) (B : List Char) (hne : B ≠ [])
    (h : ∀ c ∈ B, isWsChar c = false ∧ c ≠ '+' ∧ c ≠ '-' ∧ c ≠ '/') :
    parseRatFuel (fuel + 1) B = parseDecimalTail 1 B := by
  simp only [parseRatFuel]
  rw [trimWs_eq_self _ (fun c hc => (h c hc).1)]
  have hbe : B.isEmpty = false := List.isEmpty_eq_false.mpr hne
  simp only [hbe, Bool.false_eq_true, if_false]
  rw [stripSign_no_sign _ (fun c hc => ⟨(h c hc).2.1, (h c hc).2.2.1⟩)]
  dsimp only
  simp only [hbe, Bool.false_eq_true, if_false]
  rw [splitFirst_eq_none '/' _ (fun c hc => (h c hc).2.2.2)]

theorem parseRatFuel_negsign (fuel : Nat) (B : List Char) (hne : B ≠ [])
    (h : ∀ c ∈ B, isWsChar c = false ∧ c ≠ '+' ∧ c ≠ '-' ∧ c ≠ '/') :
    parseRatFuel (fuel + 1) ('-' :: B) = parseDecimalTail (-1) B := by
  simp only [parseRatFuel]
  have hws : ∀ c ∈ '-' :: B, isWsChar c = false := by
    intro c hc
    rcases List.mem_cons.mp hc with hc | hc
    · subst hc
      decide
    · exact (h c hc).1
  rw [trimWs_eq_self _ hws]
  simp only [List.isEmpty_cons, Bool.false_eq_true, if_false]
  have hss : stripSign ('-' :: B) = (-1, B) := by
    unfold stripSign
    dsimp only
    rw [if_neg (by decide), if_pos rfl]
  rw [hss]
  dsimp only
  have hbe : B.isEmpty = false := List.isEmpty_eq_false.mpr hne
  simp only [hbe, Bool.false_eq_true, if_false]
  rw [splitFirst_eq_none '/' _ (fun c hc => (h c hc).2.2.2)]

theorem litChars_body_facts (intDs fracDs : List Nat)
    (hint : ∀ d ∈ intDs, d < 10) (hfrac : ∀ d ∈ fracDs, d < 10) :
    ∀ c ∈ intDs.map digitChar ++
      (if fracDs.isEmpty then [] else '.' :: fracDs.map digitChar),
      isWsChar c = false ∧ c ≠ '+' ∧ c ≠ '-' ∧ c ≠ '/' := by
  intro c hc
  rcases List.mem_append.mp hc with hc | hc
  · obtain ⟨d, hd, hcd⟩ := List.mem_map.mp hc
    rw [← hcd]
    have hf := digitChar_facts d (hint d hd)
    exact ⟨hf.2.1, hf.2.2.1, hf.2.2.2.1, hf.2.2.2.2.1⟩
  · by_cases hfe : fracDs.isEmpty
    · rw [if_pos hfe] at hc
      cases hc
    · rw [if_neg hfe] at hc
      rcases List.mem_cons.mp hc with hc | hc
      · subst hc
        exact ⟨by decide, by decide, by decide, by decide⟩
      · obtain ⟨d, hd, hcd⟩ := List.mem_map.mp hc
        rw [← hcd]
        have hf := digitChar_facts d (hfrac d hd)
        exact ⟨hf.2.1, hf.2.2.1, hf.2.2.2.1, hf.2.2.2.2.1⟩

theorem litChars_body_ne (intDs fracDs : List Nat) (hne : intDs ≠ [] ∨ fracDs ≠ []) :
    intDs.map digitChar ++
      (if fracDs.isEmpty then [] else '.' :: fracDs.map digitChar) ≠ [] := by
  rcases hne with h | h
  · intro hc
    rcases List.append_eq_nil.mp hc with ⟨h1, _⟩
    exact h (List.map_eq_nil_iff.mp h1)
  · have hfeb : fracDs.isEmpty = false := List.isEmpty_eq_false.mpr h
    simp only [hfeb, Bool.false_eq_true, if_false]
    intro hc
    rcases List.append_eq_nil.mp hc with ⟨_, h2⟩
    cases h2

theorem parse_lit (sign : Bool) (intDs fracDs : List Nat) (fuel : Nat)
    (hint : ∀ d ∈ intDs, d < 10) (hfrac : ∀ d ∈ fracDs, d < 10)
    (hne : intDs ≠ [] ∨ fracDs ≠ []) :
    parseRatFuel (fuel + 1) (litChars sign intDs fracDs) =
      normalizeRational (some
        ⟨if sign then -(digitsVal (intDs ++ fracDs) : Int)
          else (digitsVal (intDs ++ fracDs) : Int),
         (10 : Int) ^ fracDs.length⟩) := by
  have hbody := litChars_body_facts intDs fracDs hint hfrac
  have hbne := litChars_body_ne intDs fracDs hne
  cases sign with
  | false =>
    have hlit : litChars false intDs fracDs = intDs.map digitChar ++
        (if fracDs.isEmpty then [] else '.' :: fracDs.map digitChar) := by
      unfold litChars
      simp only [Bool.false_eq_true, if_false, List.nil_append]
    rw [hlit, parseRatFuel_plain fuel _ hbne hbody,
      parseDecimalTail_lit 1 intDs fracDs hint hfrac]
    rw [if_neg (show ¬((1 : Int) < 0) from by norm_num)]
    simp only [Bool.false_eq_true, if_false]
  | true =>
    have hlit : litChars true intDs fracDs = '-' :: (intDs.map digitChar ++
        (if fracDs.isEmpty then [] else '.' :: fracDs.map digitChar)) := by
      unfold litChars
      rw [if_pos rfl]
      rfl
    rw [hlit, parseRatFuel_negsign fuel _ hbne hbody,
      parseDecimalTail_lit (-1) intDs fracDs hint hfrac]
    rw [if_pos (show (-1 : Int) < 0 from by norm_num), if_pos rfl]

theorem trim_subset (ds : List Nat) : ∀ d ∈ trimTrailingZerosN ds, d ∈ ds := by
  intro d hd
  unfold trimTrailingZerosN at hd
  rw [List.mem_reverse] at hd
  have hmem := (List.dropWhile_sublist (l := ds.reverse) _).subset hd
  rwa [List.mem_reverse] at hmem

theorem trim_all_zero (ds : List Nat) (h : ∀ d ∈ ds, d = 0) :
    trimTrailingZerosN ds = [] := by
  unfold trimTrailingZerosN
  have hdw : ds.reverse.dropWhile (fun d => d == 0) = [] := by
    rw [List.dropWhile_eq_nil_iff]
    intro x hx
    have := h x (List.mem_reverse.mp hx)
    simp [this]
  rw [hdw]
  rfl

theorem specMagnitude_core (I : Nat) (t : List Nat) (k : Nat)
    (htd : ∀ d ∈ t, d < 10) (htl : t.length ≤ 24)
    (htrim : trimTrailingZerosN t = t) :
    specMagnitude (I * 10 ^ (t.length + k) + digitsVal t * 10 ^ k)
        (10 ^ (t.length + k)) =
      toString I ++ (if t.isEmpty then "" else "." ++ digitsStr t) := by
  have h10 : (0 : Nat) < 10 := by norm_num
  have hvt : digitsVal t < 10 ^ t.length := digitsVal_lt t htd
  have hD : (0 : Nat) < 10 ^ (t.length + k) := pow_pos h10 _
  have hRlt : digitsVal t * 10 ^ k < 10 ^ (t.length + k) := by
    rw [pow_add]
    exact (Nat.mul_lt_mul_right (pow_pos h10 k)).mpr hvt
  have hNdiv : (I * 10 ^ (t.length + k) + digitsVal t * 10 ^ k) / 10 ^ (t.length + k)
      = I := by
    rw [mul_comm I (10 ^ (t.length + k)), Nat.mul_add_div hD, Nat.div_eq_of_lt hRlt,
      Nat.add_zero]
  have hNmod : (I * 10 ^ (t.length + k) + digitsVal t * 10 ^ k) % 10 ^ (t.length + k)
      = digitsVal t * 10 ^ k := by
    rw [mul_comm I (10 ^ (t.length + k)), Nat.mul_add_mod, Nat.mod_eq_of_lt hRlt]
  have hshift : digitsVal t * 10 ^ k * 10 ^ 24 =
      digitsVal t * 10 ^ (24 - t.length) * 10 ^ (t.length + k) := by
    rw [mul_assoc, mul_assoc, ← pow_add, ← pow_add]
    congr 2
    omega
  have hmod0 : digitsVal t * 10 ^ k * 10 ^ 24 % 10 ^ (t.length + k) = 0 := by
    rw [hshift]
    exact Nat.mul_mod_left _ _
  have hdiv24 : digitsVal t * 10 ^ k * 10 ^ 24 / 10 ^ (t.length + k)
      = digitsVal t * 10 ^ (24 - t.length) := by
    rw [hshift]
    exact Nat.mul_div_cancel _ hD
  have hVlt : digitsVal t * 10 ^ (24 - t.length) < 10 ^ 24 := by
    have h1 := (Nat.mul_lt_mul_right (pow_pos h10 (24 - t.length))).mpr hvt
    rw [← pow_add] at h1
    rw [show t.length + (24 - t.length) = 24 from by omega] at h1
    exact h1
  have hpad : padDigits (digitsVal t * 10 ^ (24 - t.length)) 24 =
      t ++ List.replicate (24 - t.length) 0 := by
    have hp := padDigits_shift t (24 - t.length) htd
    rw [show t.length + (24 - t.length) = 24 from by omega] at hp
    exact hp
  unfold specMagnitude specPair specV
  rw [hNmod, hNdiv]
  rw [if_neg (show ¬(digitsVal t * 10 ^ k * 10 ^ 24 % 10 ^ (t.length + k) ≠ 0 ∧
      5 ≤ digitsVal t * 10 ^ k * 10 ^ 25 / 10 ^ (t.length + k) % 10) from
    fun hcon => hcon.1 hmod0)]
  rw [hdiv24]
  rw [if_neg (Nat.ne_of_lt hVlt)]
  rw [hpad]
  unfold renderMag
  dsimp only
  rw [trim_append_zeros, htrim]

theorem specMagnitude_lit (intDs fracDs : List Nat)
    (_hint : ∀ d ∈ intDs, d < 10) (hfrac : ∀ d ∈ fracDs, d < 10)
    (htr : (trimTrailingZerosN fracDs).length ≤ 24) :
    specMagnitude (digitsVal (intDs ++ fracDs)) (10 ^ fracDs.length) =
      toString (digitsVal intDs) ++
        (if (trimTrailingZerosN fracDs).isEmpty then ""
         else "." ++ digitsStr (trimTrailingZerosN fracDs)) := by
  have htd : ∀ d ∈ trimTrailingZerosN fracDs, d < 10 :=
    fun d hd => hfrac d (trim_subset fracDs d hd)
  obtain ⟨k, hk⟩ : ∃ k, fracDs = trimTrailingZerosN fracDs ++ List.replicate k 0 :=
    ⟨_, trim_decomposition fracDs⟩
  have hflen : fracDs.length = (trimTrailingZerosN fracDs).length + k := by
    have h := congrArg List.length hk
    rw [List.length_append, List.length_replicate] at h
    exact h
  have hNsplit : digitsVal (intDs ++ fracDs) =
      digitsVal intDs * 10 ^ ((trimTrailingZerosN fracDs).length + k)
      + digitsVal (trimTrailingZerosN fracDs) * 10 ^ k := by
    rw [digitsVal_append, hflen]
    congr 1
    conv_lhs => rw [hk]
    rw [digitsVal_append_zeros]
  rw [hNsplit, hflen]
  exact specMagnitude_core (digitsVal intDs) (trimTrailingZerosN fracDs) k htd htr
    (trim_idem fracDs)

theorem specToString_lit (sign : Bool) (intDs fracDs : List Nat)
    (hint : ∀ d ∈ intDs, d < 10) (hfrac : ∀ d ∈ fracDs, d < 10)
    (hM : digitsVal (intDs ++ fracDs) ≠ 0)
    (htr : (trimTrailingZerosN fracDs).length ≤ 24) :
    specToString ⟨if sign then -(digitsVal (intDs ++ fracDs) : Int)
        else (digitsVal (intDs ++ fracDs) : Int), (10 : Int) ^ fracDs.length⟩ =
      canonicalString sign intDs fracDs := by
  have hnum_ne : (if sign then -(digitsVal (intDs ++ fracDs) : Int)
      else (digitsVal (intDs ++ fracDs) : Int)) ≠ 0 := by
    cases sign <;> simp [hM]
  have habs : (if sign then -(digitsVal (intDs ++ fracDs) : Int)
      else (digitsVal (intDs ++ fracDs) : Int)).natAbs = digitsVal (intDs ++ fracDs) := by
    cases sign <;> simp
  have htnat : ((10 : Int) ^ fracDs.length).toNat = 10 ^ fracDs.length := by
    rw [show ((10 : Int) ^ fracDs.length) = ((10 ^ fracDs.length : Nat) : Int) from by
      push_cast
      ring]
    exact Int.toNat_natCast _
  have hsgn : decide ((if sign then -(digitsVal (intDs ++ fracDs) : Int)
      else (digitsVal (intDs ++ fracDs) : Int)) < 0) = sign := by
    cases sign
    · simp
    · simp
      omega
  unfold specToString
  dsimp only
  rw [if_neg hnum_ne, habs, htnat, specMagnitude_lit intDs fracDs hint hfrac htr, hsgn]
  unfold canonicalString
  dsimp only

theorem litChars_ne_nil (sign : Bool) (intDs fracDs : List Nat)
    (hne : intDs ≠ [] ∨ fracDs ≠ []) : litChars sign intDs fracDs ≠ [] := by
  have hb := litChars_body_ne intDs fracDs hne
  cases sign
  · unfold litChars
    simpa using hb
  · unfold litChars
    simp

/-- **C5.** Round-trip through the parser and formatter: every decimal-literal
string (optional minus sign, integer digits, optional fractional digits) whose
fractional part fits the formatter's 24-digit cap after trailing-zero trimming
parses successfully and formats back to the numerically equivalent canonical
minimal decimal form (leading zeros of the integer part dropped, trailing
fractional zeros trimmed, no sign on zero); in particular `"0"`, `"-0"` and
`"0.000"` all parse to the exact zero `0/1`, which formats to `"0"`. -/
theorem claim_C5_roundtrip (sign : Bool) (intDs fracDs : List Nat)
    (hint : ∀ d ∈ intDs, d < 10) (hfrac : ∀ d ∈ fracDs, d < 10)
    (hne : intDs ≠ [] ∨ fracDs ≠ [])
    (htr : (trimTrailingZerosN fracDs).length ≤ 24) :
    (∃ o, parseRational (.str ⟨litChars sign intDs fracDs⟩) = .ok o ∧
        rationalToString o = canonicalString sign intDs fracDs) ∧
      parseRational (.str "0") = .ok (some ⟨0, 1⟩) ∧
      parseRational (.str "-0") = .ok (some ⟨0, 1⟩) ∧
      parseRational (.str "0.000") = .ok (some ⟨0, 1⟩) ∧
      rationalToString (some ⟨0, 1⟩) = "0" := by
  refine ⟨?_, rfl, rfl, rfl, rfl⟩
  have hlne : litChars sign intDs fracDs ≠ [] := litChars_ne_nil sign intDs fracDs hne
  have hie : (litChars sign intDs fracDs).isEmpty = false := List.isEmpty_eq_false.mpr hlne
  have hstep : parseRational (.str ⟨litChars sign intDs fracDs⟩) =
      if (litChars sign intDs fracDs).isEmpty then .ok none
      else parseRatFuel ((litChars sign intDs fracDs).length + 1)
        (litChars sign intDs fracDs) := rfl
  rw [hstep]
  simp only [hie, Bool.false_eq_true, if_false]
  rw [parse_lit sign intDs fracDs _ hint hfrac hne]
  have hden_ne : ((10 : Int) ^ fracDs.length) ≠ 0 := pow_ne_zero _ (by norm_num)
  by_cases hM : digitsVal (intDs ++ fracDs) = 0
  · rw [show (if sign then -(digitsVal (intDs ++ fracDs) : Int)
        else (digitsVal (intDs ++ fracDs) : Int)) = (0 : Int) from by
      cases sign <;> simp [hM]]
    rw [normalizeRational_zero_num _ hden_ne]
    refine ⟨some ⟨0, 1⟩, rfl, ?_⟩
    have hall0 := digitsVal_eq_zero _ hM
    have hI0 : digitsVal intDs = 0 :=
      digitsVal_all_zero _ (fun d hd => hall0 d (List.mem_append.mpr (Or.inl hd)))
    have ht0 : trimTrailingZerosN fracDs = [] :=
      trim_all_zero _ (fun d hd => hall0 d (List.mem_append.mpr (Or.inr hd)))
    unfold canonicalString
    rw [hI0, ht0]
    cases sign <;> rfl
  · obtain ⟨r', heq, hcan, hcross⟩ := normalizeRational_spec
      (if sign then -(digitsVal (intDs ++ fracDs) : Int)
        else (digitsVal (intDs ++ fracDs) : Int)) ((10 : Int) ^ fracDs.length) hden_ne
    rw [heq]
    refine ⟨some r', rfl, ?_⟩
    have hnum_ne : (if sign then -(digitsVal (intDs ++ fracDs) : Int)
        else (digitsVal (intDs ++ fracDs) : Int)) ≠ 0 := by
      cases sign <;> simp [hM]
    have hr'num : r'.numerator ≠ 0 := by
      intro h0
      have h2 : (if sign then -(digitsVal (intDs ++ fracDs) : Int)
          else (digitsVal (intDs ++ fracDs) : Int)) * r'.denominator = 0 := by
        rw [h0, zero_mul] at hcross
        exact hcross.symm
      rcases mul_eq_zero.mp h2 with h1 | h1
      · exact hnum_ne h1
      · have := hcan.1
        omega
    rw [rationalToString_eq_specToString r' hr'num hcan.1]
    rw [specToString_congr r'
      ⟨if sign then -(digitsVal (intDs ++ fracDs) : Int)
        else (digitsVal (intDs ++ fracDs) : Int), (10 : Int) ^ fracDs.length⟩
      hcan.1 (show (0 : Int) < 10 ^ fracDs.length from by positivity) hcross]
    exact specToString_lit sign intDs fracDs hint hfrac hM htr

theorem claim_C5_roundtrip_witness :
    ((∀ d ∈ ([1] : List Nat), d < 10) ∧ (∀ d ∈ ([5, 0] : List Nat), d < 10) ∧
      (([1] : List Nat) ≠ [] ∨ ([5, 0] : List Nat) ≠ []) ∧
      (trimTrailingZerosN [5, 0]).length ≤ 24) ∧
    ((∃ o, parseRational (.str "1.50") = .ok o ∧ rationalToString o = "1.5") ∧
      parseRational (.str "0") = .ok (some ⟨0, 1⟩) ∧
      parseRational (.str "-0") = .ok (some ⟨0, 1⟩) ∧
      parseRational (.str "0.000") = .ok (some ⟨0, 1⟩) ∧
      rationalToString (some ⟨0, 1⟩) = "0") :=
  ⟨⟨by decide, by decide, by decide, by decide⟩,
    claim_C5_roundtrip false [1] [5, 0] (by decide) (by decide) (by decide) (by decide)⟩

theorem findIdx?_decomp (p : Char → Bool) : ∀ (l : List Char) (s i : Nat),
    List.findIdx? p l s = some i →
    ∃ pre c post, l = pre ++ c :: post ∧ s + pre.length = i ∧ p c = true := by
  intro l
  induction l with
  | nil =>
    intro s i h
    rw [List.findIdx?_nil] at h
    cases h
  | cons x xs ih =>
    intro s i h
    rw [List.findIdx?_cons] at h
    by_cases hp : p x = true
    · rw [if_pos hp] at h
      injection h with h
      exact ⟨[], x, xs, rfl, by simpa using h, hp⟩
    · rw [if_neg hp] at h
      obtain ⟨pre, c, post, hl, hlen, hpc⟩ := ih (s + 1) i h
      refine ⟨x :: pre, c, post, by rw [hl, List.cons_append], ?_, hpc⟩
      simp only [List.length_cons]
      omega

theorem splitFirst_some (c : Char) : ∀ (l l₁ l₂ : List Char),
    splitFirst c l = some (l₁, l₂) → l = l₁ ++ c :: l₂ := by
  intro l
  induction l with
  | nil =>
    intro l₁ l₂ h
    simp [splitFirst] at h
  | cons x xs ih =>
    intro l₁ l₂ h
    rw [splitFirst] at h
    by_cases hx : x = c
    · rw [if_pos hx] at h
      injection h with h
      injection h with h1 h2
      subst h1
      subst h2
      simp [hx]
    · rw [if_neg hx] at h
      cases hsp : splitFirst c xs with
      | none =>
        rw [hsp] at h
        simp at h
      | some p =>
        rw [hsp, Option.map_some'] at h
        injection h with h
        injection h with h1 h2
        subst h1
        subst h2
        have hxs := ih p.1 p.2 (by rw [hsp])
        rw [hxs, List.cons_append]

theorem mem_dropWhile_of_false {α : Type} (p : α → Bool) (l : List α) (x : α)
    (hx : x ∈ l) (hpx : p x = false) : x ∈ l.dropWhile p := by
  induction l with
  | nil => cases hx
  | cons c rest ih =>
    rw [List.dropWhile_cons]
    by_cases hc : p c = true
    · rw [if_pos hc]
      rcases List.mem_cons.mp hx with h | h
      · subst h
        rw [hc] at hpx
        cases hpx
      · exact ih h
    · rw [if_neg hc]
      exact hx

theorem parseDecimalTail_reject (sig : Int) (s : List Char) (b : Char) (hb : b ∈ s)
    (hbad : ¬(b.isDigit = true ∨ b = '+' ∨ b = '-' ∨ b = '.' ∨ b = '/'))
    (hnoe : ∀ c ∈ s, c.toLower ≠ 'e') :
    parseDecimalTail sig s = .ok none := by
  have hbd : b.isDigit = false := by
    cases hbi : b.isDigit
    · rfl
    · exact absurd (Or.inl hbi) hbad
  have hbdot : b ≠ '.' := fun h => hbad (Or.inr (Or.inr (Or.inr (Or.inl h))))
  have hb0 : b ≠ '0' := by
    intro h
    subst h
    exact absurd hbd (by decide)
  have he : s.findIdx? (fun c => c.toLower = 'e') = none := by
    rw [List.findIdx?_eq_none_iff]
    intro x hx
    exact decide_eq_false (hnoe x hx)
  unfold parseDecimalTail
  rw [he]
  dsimp only
  cases hdot : s.findIdx? (fun c => c = '.') with
  | none =>
    dsimp only
    have hmem : b ∈ s.dropWhile (fun c => c = '0') :=
      mem_dropWhile_of_false _ s b hb (decide_eq_false hb0)
    have hie : (s.dropWhile (fun c => c = '0')).isEmpty = false :=
      List.isEmpty_eq_false.mpr (List.ne_nil_of_mem hmem)
    have hallf : (s.dropWhile (fun c => c = '0')).all Char.isDigit = false := by
      rw [Bool.eq_false_iff]
      intro hall
      have := List.all_eq_true.mp hall b hmem
      rw [hbd] at this
      cases this
    simp only [hie, hallf, Bool.not_false, Bool.false_eq_true, if_false]
    rw [if_pos trivial]
  | some i =>
    obtain ⟨pre, c, post, hsplit, hlen, hpc⟩ := findIdx?_decomp _ s 0 i hdot
    have hceq : c = '.' := of_decide_eq_true hpc
    subst hceq
    have hi : i = pre.length := by omega
    subst hi
    dsimp only
    rw [hsplit, take_append_cons, drop_append_cons]
    have hb2 : b ∈ pre ++ post := by
      rw [hsplit] at hb
      rcases List.mem_append.mp hb with h | h
      · exact List.mem_append.mpr (Or.inl h)
      · rcases List.mem_cons.mp h with h | h
        · exact absurd h hbdot
        · exact List.mem_append.mpr (Or.inr h)
    have hmem : b ∈ (pre ++ post).dropWhile (fun c => c = '0') :=
      mem_dropWhile_of_false _ _ b hb2 (decide_eq_false hb0)
    have hie : ((pre ++ post).dropWhile (fun c => c = '0')).isEmpty = false :=
      List.isEmpty_eq_false.mpr (List.ne_nil_of_mem hmem)
    have hallf : ((pre ++ post).dropWhile (fun c => c = '0')).all Char.isDigit = false := by
      rw [Bool.eq_false_iff]
      intro hall
      have := List.all_eq_true.mp hall b hmem
      rw [hbd] at this
      cases this
    simp only [hie, hallf, Bool.not_false, Bool.false_eq_true, if_false]
    rw [if_pos trivial]

theorem parseRatFuel_reject : ∀ (fuel : Nat) (l : List Char),
    (∀ c ∈ l, isWsChar c = false ∧ c.toLower ≠ 'e') →
    (∃ b ∈ l, ¬(b.isDigit = true ∨ b = '+' ∨ b = '-' ∨ b = '.' ∨ b = '/')) →
    parseRatFuel fuel l = .ok none := by
  intro fuel
  induction fuel with
  | zero =>
    intro l _ _
    rfl
  | succ fuel ih =>
    intro l hcls hbad
    obtain ⟨b, hbl, hbbad⟩ := hbad
    have hbp : b ≠ '+' := fun h => hbbad (Or.inr (Or.inl h))
    have hbm : b ≠ '-' := fun h => hbbad (Or.inr (Or.inr (Or.inl h)))
    have hbsl : b ≠ '/' := fun h => hbbad (Or.inr (Or.inr (Or.inr (Or.inr h))))
    cases l with
    | nil => cases hbl
    | cons x xs =>
      simp only [parseRatFuel]
      rw [trimWs_eq_self _ (fun c hc => (hcls c hc).1)]
      simp only [List.isEmpty_cons, Bool.false_eq_true, if_false]
      obtain ⟨sg, s, hss, hbs2, hsub⟩ :
          ∃ sg s, stripSign (x :: xs) = (sg, s) ∧ b ∈ s ∧ ∀ c ∈ s, c ∈ x :: xs := by
        by_cases hxp : x = '+'
        · subst hxp
          refine ⟨1, xs, ?_, ?_, fun c hc => List.mem_cons_of_mem _ hc⟩
          · unfold stripSign
            dsimp only
            rw [if_pos rfl]
          · rcases List.mem_cons.mp hbl with h | h
            · exact absurd h hbp
            · exact h
        · by_cases hxm : x = '-'
          · subst hxm
            refine ⟨-1, xs, ?_, ?_, fun c hc => List.mem_cons_of_mem _ hc⟩
            · unfold stripSign
              dsimp only
              rw [if_neg (by decide), if_pos rfl]
            · rcases List.mem_cons.mp hbl with h | h
              · exact absurd h hbm
              · exact h
          · refine ⟨1, x :: xs, ?_, hbl, fun c hc => hc⟩
            unfold stripSign
            dsimp only
            rw [if_neg hxp, if_neg hxm]
      rw [hss]
      dsimp only
      have hclss : ∀ c ∈ s, isWsChar c = false ∧ c.toLower ≠ 'e' :=
        fun c hc => hcls c (hsub c hc)
      have hsie : s.isEmpty = false := List.isEmpty_eq_false.mpr (List.ne_nil_of_mem hbs2)
      simp only [hsie, Bool.false_eq_true, if_false]
      cases hsp : splitFirst '/' s with
      | none =>
        dsimp only
        exact parseDecimalTail_reject sg s b hbs2 hbbad (fun c hc => (hclss c hc).2)
      | some p =>
        obtain ⟨l₁, l₂⟩ := p
        dsimp only
        have hdec := splitFirst_some '/' s l₁ l₂ hsp
        have hbor : b ∈ l₁ ∨ b ∈ l₂ := by
          have hbs3 := hbs2
          rw [hdec] at hbs3
          rcases List.mem_append.mp hbs3 with h | h
          · exact Or.inl h
          · rcases List.mem_cons.mp h with h | h
            · exact absurd h hbsl
            · exact Or.inr h
        have hsub1 : ∀ c ∈ l₁, c ∈ s := by
          rw [hdec]
          intro c hc
          exact List.mem_append.mpr (Or.inl hc)
        have hsub2 : ∀ c ∈ l₂, c ∈ s := by
          rw [hdec]
          intro c hc
          exact List.mem_append.mpr (Or.inr (List.mem_cons_of_mem _ hc))
        by_cases hemp : (l₁.isEmpty || l₂.isEmpty) = true
        · rw [if_pos hemp]
        · rw [if_neg hemp]
          rcases hbor with hbin | hbin
          · rw [ih l₁ (fun c hc => hclss c (hsub1 c hc)) ⟨b, hbin, hbbad⟩]
            simp only [bind_ok_ex]
            obtain ⟨o2, h2, _⟩ := parseRatFuel_good fuel l₂
            rw [h2]
            simp only [bind_ok_ex]
          · obtain ⟨o1, h1, _⟩ := parseRatFuel_good fuel l₁
            rw [h1]
            simp only [bind_ok_ex]
            rw [ih l₂ (fun c hc => hclss c (hsub2 c hc)) ⟨b, hbin, hbbad⟩]
            simp only [bind_ok_ex]

/-- **C6 (counterexample).** `"1eX"` contains `'X'`, a character outside
`[0-9+\-./eE]` that survives the stripping of the sign, fraction, and exponent
markers, yet `parseRational` does not reject it: the `parseInt` call that
reads the exponent turns the unparsable suffix `"X"` into the exponent `0`, so
the input parses as the exact value `1`. -/
theorem claim_C6_counterexample :
    ('X'.isDigit = false ∧ 'X' ≠ '+' ∧ 'X' ≠ '-' ∧ 'X' ≠ '.' ∧ 'X' ≠ '/' ∧
      'X' ≠ 'e' ∧ 'X' ≠ 'E') ∧
    parseRational (.str "1eX") = .ok (some ⟨1, 1⟩) :=
  ⟨by decide, rfl⟩

/-- **C6 (amended).** For strings free of whitespace and of any
exponent-marker character (a character whose lower-casing is `'e'`), the
rejection guarantee holds: if such a string contains any character outside
the digit/sign/dot/slash repertoire `[0-9+\-./]`, `parseRational` returns the
`null` absence result. -/
theorem claim_C6_amended (s : String)
    (hclass : ∀ c ∈ s.toList, isWsChar c = false ∧ c.toLower ≠ 'e')
    (hbad : ∃ b ∈ s.toList,
      ¬(b.isDigit = true ∨ b = '+' ∨ b = '-' ∨ b = '.' ∨ b = '/')) :
    parseRational (.str s) = .ok none := by
  have hstep : parseRational (.str s) =
      if s.toList.isEmpty then .ok none
      else parseRatFuel (s.toList.length + 1) s.toList := rfl
  rw [hstep]
  by_cases he : s.toList.isEmpty = true
  · rw [if_pos he]
  · rw [if_neg he]
    exact parseRatFuel_reject (s.toList.length + 1) s.toList hclass hbad

theorem claim_C6_amended_witness :
    ((∀ c ∈ ("a#".toList), isWsChar c = false ∧ c.toLower ≠ 'e') ∧
      (∃ b ∈ ("a#".toList),
        ¬(b.isDigit = true ∨ b = '+' ∨ b = '-' ∨ b = '.' ∨ b = '/'))) ∧
    parseRational (.str "a#") = .ok none :=
  ⟨⟨by decide, by decide⟩, claim_C6_amended "a#" (by decide) (by decide)⟩
